import Mathlib

/-!
Verification of the version-policy core of the release scripts
(`typespec_python_release.py`, `http_client_python_release.py`).

Python strings are embedded as `List Char` (the scripts only ever handle ASCII
text here); Python exceptions are modelled as `none` of an `Option` result.
-/

/-- Characters of a string literal. -/
def str (s : String) : List Char := s.data

/-- Embedded Python strings. -/
abbrev Str := List Char

/-- Python's default whitespace set (ASCII part), as stripped by str.strip() and
int(); the scripts' inputs contain no other whitespace. -/
def isPyWS (c : Char) : Bool :=
  c == ' ' || c == '\t' || c == '\n' || c == '\r' || c == '\x0b' || c == '\x0c'

/-- Python str.strip() (ASCII whitespace). -/
def pyStrip (s : Str) : Str :=
  ((s.dropWhile isPyWS).reverse.dropWhile isPyWS).reverse

/-- Python str.lstrip with the character set tilde/caret, as in lstrip of the
two-character sets used by the scripts (both orders strip the same set). -/
def stripRange (s : Str) : Str := s.dropWhile (fun c => c == '~' || c == '^')

/-- Value of a decimal digit character. -/
def digitVal (c : Char) : Nat := c.toNat - 48

/-- Nonempty all-digit string. -/
def isDigits (s : Str) : Bool := !s.isEmpty && s.all Char.isDigit

/-- Numeric value of a digit string (most significant digit first). -/
def digitsToNat (s : Str) : Nat := s.foldl (fun acc c => 10 * acc + digitVal c) 0

/-- Tail of Python int() literal parsing, after a first digit was consumed: each
further character is a digit, or a single underscore followed by a digit. -/
def pyIntCore (acc : Nat) : Str → Option Nat
  | [] => some acc
  | c :: rest =>
    if c.isDigit then pyIntCore (10 * acc + digitVal c) rest
    else if c == '_' then
      match rest with
      | [] => none
      | c2 :: rest2 =>
        if c2.isDigit then pyIntCore (10 * acc + digitVal c2) rest2 else none
    else none

/-- Start of a Python int() literal after sign handling: at least one digit. -/
def pyIntStart : Str → Option Nat
  | [] => none
  | c :: rest => if c.isDigit then pyIntCore (digitVal c) rest else none

/-- Sign handling of Python int(). -/
def pyIntSigned : Str → Option Int
  | [] => none
  | c :: rest =>
    if c == '+' then (pyIntStart rest).map (fun n => (n : Int))
    else if c == '-' then (pyIntStart rest).map (fun n => -(n : Int))
    else (pyIntStart (c :: rest)).map (fun n => (n : Int))

/-- Python int(string): optional surrounding whitespace, optional sign, then a
nonempty digit sequence with optional single underscores between digits
(modelled for ASCII digits, the only digits occurring in this code base);
`none` models the ValueError raised otherwise. -/
def pyInt (s : Str) : Option Int := pyIntSigned (pyStrip s)

/-- Python str.startswith, on character lists. -/
def isPre : Str → Str → Bool
  | [], _ => true
  | _ :: _, [] => false
  | a :: as, b :: bs => a == b && isPre as bs

/-- Split at the last occurrence of `sep`: Python str.rsplit(sep, 1) when `sep`
occurs in the string; `none` models "`sep` not in the string". -/
def rsplitOnce (sep : Str) : Str → Option (Str × Str)
  | [] => if sep.isEmpty then some ([], []) else none
  | c :: cs =>
    match rsplitOnce sep cs with
    | some (b, a) => some (c :: b, a)
    | none => if isPre sep (c :: cs) then some ([], (c :: cs).drop sep.length) else none

/-- Python substring containment (the `in` operator on strings). -/
def occurs (sep s : Str) : Bool := (rsplitOnce sep s).isSome

/-- Split at the first occurrence of `pat` (the scan done by str.replace and by
re.sub with a literal pattern). -/
def splitFirst (pat : Str) : Str → Option (Str × Str)
  | [] => if pat.isEmpty then some ([], []) else none
  | c :: cs =>
    if isPre pat (c :: cs) then some ([], (c :: cs).drop pat.length)
    else (splitFirst pat cs).map (fun p => (c :: p.1, p.2))

/-- Python str.split for a one-character separator. -/
def splitOnChar (c : Char) : Str → List Str
  | [] => [[]]
  | a :: as =>
    if a == c then [] :: splitOnChar c as
    else
      match splitOnChar c as with
      | [] => [[a]]
      | s :: ss => (a :: s) :: ss

/-- Lexicographic strict comparison of two lists, matching Python's comparison
of tuples and of strings (a strict prefix is smaller). -/
def listLT {α : Type} [LinearOrder α] : List α → List α → Bool
  | [], [] => false
  | [], _ :: _ => true
  | _ :: _, [] => false
  | a :: as, b :: bs => if a < b then true else if b < a then false else listLT as bs

/-- The "-dev." marker of `_parse_version_tuple`. -/
def devSep : Str := str (r"-dev.")

/-- The "-alpha." marker of `_parse_version_tuple`. -/
def alphaSep : Str := str (r"-alpha.")

/-- The comparable tuple produced by `_parse_version_tuple`: a Python tuple of
numbers in which the alpha slot may be the float infinity, modelled as `⊤`. -/
abbrev PyTuple := List (WithTop Int)

/-- `tuple(int(x) for x in v.split("."))`: int()-convert every field, with an
exception (`none`) as soon as one fails. -/
def mapIntList : List Str → Option (List Int)
  | [] => some []
  | x :: xs =>
    match pyInt x, mapIntList xs with
    | some v, some vs => some (v :: vs)
    | _, _ => none

/-- Split an optional suffix introduced by `sep` at its last occurrence and
int()-convert the suffix text (the "-dev." / "-alpha." handling of
`_parse_version_tuple`); `none` models the int() exception. -/
def splitSuffixNum (sep v : Str) : Option (Str × Option Int) :=
  match rsplitOnce sep v with
  | some (b, a) =>
    match pyInt a with
    | some d => some (b, some d)
    | none => none
  | none => some (v, none)

/-- The two return branches of `_parse_version_tuple`: parts followed by
(alpha-or-infinity, 0, dev) when a dev number is present, else by
(alpha-or-infinity, 1, 0). -/
def assembleTuple (parts : List Int) (alphaNum devNum : Option Int) : PyTuple :=
  match devNum with
  | some d =>
    parts.map (fun n => (n : WithTop Int)) ++
      [(match alphaNum with | some a => ((a : Int) : WithTop Int) | none => ⊤),
       ((0 : Int) : WithTop Int), ((d : Int) : WithTop Int)]
  | none =>
    parts.map (fun n => (n : WithTop Int)) ++
      [(match alphaNum with | some a => ((a : Int) : WithTop Int) | none => ⊤),
       ((1 : Int) : WithTop Int), ((0 : Int) : WithTop Int)]

/-- Body of `_parse_version_tuple` (typespec_python_release.py lines 245-268)
after the leading tilde/caret strip: split off a trailing "-dev.N" at its last
occurrence, then a trailing "-alpha.N", int()-convert the remaining
dot-separated fields, and assemble the comparison tuple. `none` models the
ValueError a failed int() conversion raises. -/
def parseVersionTupleCore (v0 : Str) : Option PyTuple :=
  match splitSuffixNum devSep v0 with
  | none => none
  | some (v1, devNum) =>
    match splitSuffixNum alphaSep v1 with
    | none => none
    | some (v2, alphaNum) =>
      match mapIntList (splitOnChar '.' v2) with
      | none => none
      | some parts => some (assembleTuple parts alphaNum devNum)

/-- `_parse_version_tuple` from typespec_python_release.py (lines 245-268). -/
def parseVersionTuple (s : Str) : Option PyTuple :=
  parseVersionTupleCore (stripRange s)

/-- The comparison expression of verify_spec_dev_dependencies (line 297):
`_parse_version_tuple(a) > _parse_version_tuple(b)`; `none` when either parse
raises. -/
def parseTupleGT (a b : Str) : Option Bool :=
  match parseVersionTuple a, parseVersionTuple b with
  | some x, some y => some (listLT y x)
  | _, _ => none

/-- The mirror-image strict comparison `_parse_version_tuple(a) <
_parse_version_tuple(b)`. -/
def parseTupleLT (a b : Str) : Option Bool :=
  match parseVersionTuple a, parseVersionTuple b with
  | some x, some y => some (listLT x y)
  | _, _ => none

/-- A version of the §4.1 grammar with each numeric field kept as its literal
digit string: MAJOR.MINOR.PATCH, optionally -alpha.N, optionally -dev.M
(`pre = some (alphaDigits, some devDigits)` etc.). -/
structure GV where
  d1 : Str
  d2 : Str
  d3 : Str
  pre : Option (Str × Option Str)

/-- Well-formedness: every field is a nonempty digit string. -/
def GV.valid (g : GV) : Prop :=
  isDigits g.d1 = true ∧ isDigits g.d2 = true ∧ isDigits g.d3 = true ∧
  (match g.pre with
   | none => True
   | some (a, none) => isDigits a = true
   | some (a, some d) => isDigits a = true ∧ isDigits d = true)

instance : (g : GV) → Decidable g.valid
  | ⟨d1, d2, d3, none⟩ =>
      inferInstanceAs (Decidable
        (isDigits d1 = true ∧ isDigits d2 = true ∧ isDigits d3 = true ∧ True))
  | ⟨d1, d2, d3, some (a, none)⟩ =>
      inferInstanceAs (Decidable
        (isDigits d1 = true ∧ isDigits d2 = true ∧ isDigits d3 = true ∧ isDigits a = true))
  | ⟨d1, d2, d3, some (a, some d)⟩ =>
      inferInstanceAs (Decidable
        (isDigits d1 = true ∧ isDigits d2 = true ∧ isDigits d3 = true ∧
          (isDigits a = true ∧ isDigits d = true)))

/-- The grammar string denoted by a `GV`. -/
def GV.render (g : GV) : Str :=
  g.d1 ++ '.' :: g.d2 ++ '.' :: g.d3 ++
    (match g.pre with
     | none => []
     | some (a, none) => alphaSep ++ a
     | some (a, some d) => alphaSep ++ a ++ devSep ++ d)

/-- The comparison tuple `_parse_version_tuple` produces for a grammar version. -/
def GV.tuple (g : GV) : PyTuple :=
  ((digitsToNat g.d1 : Int) : WithTop Int) :: ((digitsToNat g.d2 : Int) : WithTop Int) ::
    ((digitsToNat g.d3 : Int) : WithTop Int) ::
    (match g.pre with
     | none => [⊤, ((1 : Int) : WithTop Int), ((0 : Int) : WithTop Int)]
     | some (a, none) =>
       [((digitsToNat a : Int) : WithTop Int), ((1 : Int) : WithTop Int), ((0 : Int) : WithTop Int)]
     | some (a, some d) =>
       [((digitsToNat a : Int) : WithTop Int), ((0 : Int) : WithTop Int),
        ((digitsToNat d : Int) : WithTop Int)])

/-- The ordering stated by spec §4.2 and claim C1, on the numeric readings of
two grammar versions (spec-side definition, used only to state the claim):
(major, minor, patch) lexicographically; a release after any pre-release of the
same triple; alpha numbers numerically; a finalized pre-release after its dev
builds; dev numbers numerically. -/
def specOrderLT (x y : GV) : Bool :=
  if digitsToNat x.d1 < digitsToNat y.d1 then true
  else if digitsToNat y.d1 < digitsToNat x.d1 then false
  else if digitsToNat x.d2 < digitsToNat y.d2 then true
  else if digitsToNat y.d2 < digitsToNat x.d2 then false
  else if digitsToNat x.d3 < digitsToNat y.d3 then true
  else if digitsToNat y.d3 < digitsToNat x.d3 then false
  else
    match x.pre, y.pre with
    | none, _ => false
    | some _, none => true
    | some (a1, dv1), some (a2, dv2) =>
      if digitsToNat a1 < digitsToNat a2 then true
      else if digitsToNat a2 < digitsToNat a1 then false
      else
        match dv1, dv2 with
        | none, _ => false
        | some _, none => true
        | some e1, some e2 => decide (digitsToNat e1 < digitsToNat e2)

/-- Comparison verdict LESS / EQUAL / GREATER induced by the strict tuple
comparison (spec §4.2's compare, as realized by Python tuple comparison on
`_parse_version_tuple` results). -/
def compareT (a b : PyTuple) : Ordering :=
  if listLT a b then Ordering.lt else if listLT b a then Ordering.gt else Ordering.eq

/-- Maximal run of leading decimal digits and the rest (the `[0-9]+` munch of a
regex whose next token cannot match a digit, so no backtracking can occur). -/
def munchDigits : Str → Str × Str
  | [] => ([], [])
  | c :: cs =>
    if c.isDigit then
      match munchDigits cs with
      | (d, r) => (c :: d, r)
    else ([], c :: cs)

/-- A PEP 440 version of the subset relevant here: release segments, an
optional alpha pre-release number, an optional dev number. Modelled from the
external packaging library used by http_client_python_release.py. -/
structure Pep where
  release : List Nat
  preN : Option Nat
  devN : Option Nat
deriving DecidableEq

/-- One optional separator character of PEP 440's pre/dev segments. -/
def pepSepOpt (s : Str) : Str :=
  match s with
  | c :: r => if c == '-' || c == '_' || c == '.' then r else s
  | [] => []

/-- One expected literal character, returning the rest. -/
def expectChar (x : Char) : Str → Option Str
  | [] => none
  | c :: r => if c == x then some r else none

/-- Further `.N` release segments (fuel-indexed structural recursion; the fuel
passed by `pep440Parse` always suffices). -/
def pepReleaseTail (fuel : Nat) (s : Str) : List Nat × Str :=
  match fuel with
  | 0 => ([], s)
  | fuel + 1 =>
    match s with
    | [] => ([], [])
    | c :: rest =>
      if c == '.' then
        match munchDigits rest with
        | ([], _) => ([], c :: rest)
        | (d, r) =>
          match pepReleaseTail fuel r with
          | (ds, r') => (digitsToNat d :: ds, r')
      else ([], c :: rest)

/-- Optional pre-release segment: optional separator, "alpha" or "a", optional
separator, optional number (0 when absent); consumes nothing on failure. -/
def pepPre (s : Str) : Option Nat × Str :=
  let t := pepSepOpt s
  if isPre (str (r"alpha")) t then
    let u := pepSepOpt (t.drop 5)
    match munchDigits u with
    | ([], _) => (some 0, u)
    | (d, r) => (some (digitsToNat d), r)
  else if isPre (str (r"a")) t then
    let u := pepSepOpt (t.drop 1)
    match munchDigits u with
    | ([], _) => (some 0, u)
    | (d, r) => (some (digitsToNat d), r)
  else (none, s)

/-- Optional dev segment: optional separator, "dev", optional separator,
optional number (0 when absent); consumes nothing on failure. -/
def pepDev (s : Str) : Option Nat × Str :=
  let t := pepSepOpt s
  if isPre (str (r"dev")) t then
    let u := pepSepOpt (t.drop 3)
    match munchDigits u with
    | ([], _) => (some 0, u)
    | (d, r) => (some (digitsToNat d), r)
  else (none, s)

/-- PEP 440's optional "v" prefix. -/
def pepStripV (s : Str) : Str :=
  match s with
  | [] => []
  | c :: r => if c == 'v' then r else c :: r

/-- Modelled from the external packaging library's version parser (PEP 440),
restricted to the subset this repository exercises: optional surrounding
whitespace, optional lowercase "v" prefix, dotted numeric release, optional
alpha pre-release, optional dev segment. Epoch, post, local segments, other
pre-release spellings and uppercase input are not modelled; `none` models
packaging's InvalidVersion. -/
def pep440Parse (s : Str) : Option Pep :=
  match munchDigits (pepStripV (pyStrip s)) with
  | ([], _) => none
  | (d0, r0) =>
    match pepReleaseTail r0.length r0 with
    | (ds, r1) =>
      match pepPre r1 with
      | (preN, r2) =>
        match pepDev r2 with
        | (devN, r3) =>
          if r3.isEmpty then some ⟨digitsToNat d0 :: ds, preN, devN⟩ else none

/-- Trailing zeros dropped from a release tuple (packaging's comparison key
canonicalization). -/
def stripZeros : List Nat → List Nat
  | [] => []
  | h :: t =>
    match stripZeros t with
    | [] => if h = 0 then [] else [h]
    | t' => h :: t'

/-- PEP 440 pre-release comparison key (packaging _cmpkey, restricted): a final
release (no pre, no dev) sorts above every pre number (`⊤`-inside); a dev-only
version sorts below (`⊥`); otherwise the pre number itself. -/
def pepPreKey (p : Pep) : WithBot (WithTop Nat) :=
  match p.preN with
  | some n => ((n : WithTop Nat) : WithBot (WithTop Nat))
  | none =>
    match p.devN with
    | some _ => ⊥
    | none => ((⊤ : WithTop Nat) : WithBot (WithTop Nat))

/-- PEP 440 dev comparison key: a version without dev segment sorts above all
dev numbers. -/
def pepDevKey (p : Pep) : WithTop Nat :=
  match p.devN with
  | some n => (n : WithTop Nat)
  | none => ⊤

/-- The Pep value the modelled packaging parser produces for a §4.1 grammar
version. -/
def GV.pep (g : GV) : Pep :=
  ⟨[digitsToNat g.d1, digitsToNat g.d2, digitsToNat g.d3],
   (match g.pre with
    | none => none
    | some (a, _) => some (digitsToNat a)),
   (match g.pre with
    | none => none
    | some (_, none) => none
    | some (_, some d) => some (digitsToNat d))⟩

/-- Strict comparison of two modelled PEP 440 versions: zero-stripped release
tuple first, then pre-release key, then dev key (packaging's Version order on
the modelled subset). -/
def pepLT (p q : Pep) : Bool :=
  if listLT (stripZeros p.release) (stripZeros q.release) then true
  else if listLT (stripZeros q.release) (stripZeros p.release) then false
  else if pepPreKey p < pepPreKey q then true
  else if pepPreKey q < pepPreKey p then false
  else decide (pepDevKey p < pepDevKey q)

/-- is_newer_version from http_client_python_release.py (lines 122-131):
compare the two strings as packaging versions, and on any parse failure fall
back to Python string comparison `new_ver > old_ver`. -/
def is_newer_version (new_ver old_ver : Str) : Bool :=
  match pep440Parse new_ver, pep440Parse old_ver with
  | some a, some b => pepLT b a
  | _, _ => listLT old_ver new_ver

/-- Python dict access by key, on an association list (first binding wins). -/
def lookupS (n : Str) : List (Str × Str) → Option Str
  | [] => none
  | (k, v) :: rest => if k = n then some v else lookupS n rest

/-- The dependency-restore loop of update_dependencies
(http_client_python_release.py lines 140-170), with the file reads and the
npm-check-updates call abstracted into the original/proposed mappings: for each
proposed entry whose name is also bound in the original mapping, keep the
original value when it compares newer after stripping leading caret/tilde from
both, else keep the proposed value; names only in proposed pass through. -/
def reconcile (original proposed : List (Str × Str)) : List (Str × Str) :=
  proposed.map (fun e =>
    match lookupS e.1 original with
    | some ov =>
      if is_newer_version (stripRange ov) (stripRange e.2) then (e.1, ov) else e
    | none => e)

/-- The literal marker text scanned for in the changelog diff. -/
def featuresMarker : Str := str (r"### Features")

/-- The minor-bump test of check_and_fix_minor_version
(typespec_python_release.py lines 354-357), with the diff text already split
into lines: some line starts with "+" and contains "### Features". -/
def classifyBumpMinor (lines : List Str) : Bool :=
  lines.any (fun l => isPre ['+'] l && occurs featuresMarker l)

/-- The per-entry range rewrite of update_peer_dependencies
(http_client_python_release.py lines 199-216), for a peer entry whose package
is bound in the reconciled dependency map: ranges starting ">=" and containing
"<" are split at "<"; when that yields exactly two parts the range becomes
">=" new-version, a space, and "<" followed by the whitespace-stripped text
after the "<"; otherwise, ranges starting "^" become "^" new-version; anything
else is returned unchanged. -/
def rewritePeerRange (version_range new_version : Str) : Str :=
  if isPre (str (r">=")) version_range && occurs (str (r"<")) version_range then
    match splitOnChar '<' version_range with
    | [_, after] => str (r">=") ++ new_version ++ ' ' :: '<' :: pyStrip after
    | _ => version_range
  else if isPre (str (r"^")) version_range then '^' :: new_version
  else version_range

/-- Digit string of a natural number (fuel-indexed structural recursion; the
fuel passed by `natDigits` always suffices). -/
def natDigitsAux (fuel n : Nat) : Str :=
  match fuel with
  | 0 => []
  | fuel + 1 =>
    if n < 10 then [Char.ofNat (48 + n)]
    else natDigitsAux fuel (n / 10) ++ [Char.ofNat (48 + n % 10)]

/-- Decimal rendering of a natural number (Python's str() of an int, as used by
the f-string that builds the bumped version). -/
def natDigits (n : Nat) : Str := natDigitsAux (n + 1) n

/-- The string the scripts build for the bumped version, from the regex groups
of the current one: f-string major "." int(minor)+1 ".0"
(check_and_fix_minor_version lines 391 and 402 use this same formula for the
package.json field and for the changelog heading). -/
def newVersionString (d1 d2 : Str) : Str :=
  d1 ++ '.' :: natDigits (digitsToNat d2 + 1) ++ '.' :: ['0']

/-- Match of `(\d+)\.(\d+)\.(\d+)` at the start of the string, returning the
three digit groups and the rest. Greedy `\d+` with a following token that
cannot match a digit is exactly maximal munch, so no backtracking arises. -/
def matchTriple (s : Str) : Option (Str × Str × Str × Str) :=
  match munchDigits s with
  | ([], _) => none
  | (dd1, r1) =>
    match expectChar '.' r1 with
    | none => none
    | some r2 =>
      match munchDigits r2 with
      | ([], _) => none
      | (dd2, r3) =>
        match expectChar '.' r3 with
        | none => none
        | some r4 =>
          match munchDigits r4 with
          | ([], _) => none
          | (dd3, r5) => some (dd1, dd2, dd3, r5)

/-- The changelog heading pattern `## (\d+)\.(\d+)\.(\d+)` matched at the start
of the string (groups only). -/
def matchHeadingAt (s : Str) : Option (Str × Str × Str) :=
  if isPre (str (r"## ")) s then
    match matchTriple (s.drop 3) with
    | some (a, b, c, _) => some (a, b, c)
    | none => none
  else none

/-- re.search of the heading pattern: first position with a match. -/
def findHeading : Str → Option (Str × Str × Str)
  | [] => none
  | c :: cs =>
    match matchHeadingAt (c :: cs) with
    | some g => some g
    | none => findHeading cs

/-- Replace the first occurrence of the literal `pat` by `new` (re.sub with an
re.escape'd pattern, a replacement free of backreferences, and count=1). -/
def replaceOnce (pat new s : Str) : Str :=
  match splitFirst pat s with
  | some (b, a) => b ++ new ++ a
  | none => s

/-- Left-to-right non-overlapping replacement of every occurrence
(fuel-indexed; the fuel passed by `replaceAll` always suffices). -/
def replaceAllFuel (fuel : Nat) (pat new s : Str) : Str :=
  match fuel with
  | 0 => s
  | fuel + 1 =>
    match splitFirst pat s with
    | none => s
    | some (b, a) => b ++ new ++ replaceAllFuel fuel pat new a

/-- Python str.replace: replace every occurrence of `pat` by `new`. -/
def replaceAll (pat new s : Str) : Str := replaceAllFuel (s.length + 1) pat new s

/-- The changelog branch of check_and_fix_minor_version
(typespec_python_release.py lines 395-404): re.search the first `## X.Y.Z`
heading, then replace the first occurrence of that literal heading with the
minor-bumped one (re.sub, count=1). -/
def bumpChangelog (content : Str) : Str :=
  match findHeading content with
  | none => content
  | some (dd1, dd2, dd3) =>
    replaceOnce (str (r"## ") ++ dd1 ++ '.' :: dd2 ++ '.' :: dd3)
      (str (r"## ") ++ newVersionString dd1 dd2) content

/-- The literal key text of the package.json version field. -/
def versionFieldKey : Str := '"' :: str (r"version") ++ ['"', ':']

/-- The exact literal the version branch replaces: the key, one space, and the
quoted version (the f-string of line 392). -/
def versionFieldLit (v : Str) : Str := versionFieldKey ++ ' ' :: '"' :: v ++ ['"']

/-- The version-field regex of check_and_fix_minor_version (line 386) matched
at the start of the string: the quoted key, `\s*`, then a quoted version
triple; returns the three digit groups. -/
def matchVersionFieldAt (s : Str) : Option (Str × Str × Str) :=
  if isPre versionFieldKey s then
    match expectChar '"' ((s.drop versionFieldKey.length).dropWhile isPyWS) with
    | some r =>
      match matchTriple r with
      | some (a, b, c, rest) => if isPre ['"'] rest then some (a, b, c) else none
      | none => none
    | none => none
  else none

/-- re.search of the version-field pattern: first position with a match. -/
def findVersionField : Str → Option (Str × Str × Str)
  | [] => none
  | c :: cs =>
    match matchVersionFieldAt (c :: cs) with
    | some g => some g
    | none => findVersionField cs

/-- The package.json branch of check_and_fix_minor_version
(typespec_python_release.py lines 383-393): re.search the version field, then
str.replace every occurrence of the exact single-space literal with the
minor-bumped one. -/
def bumpVersionField (content : Str) : Str :=
  match findVersionField content with
  | none => content
  | some (dd1, dd2, dd3) =>
    replaceAll (versionFieldLit (dd1 ++ '.' :: dd2 ++ '.' :: dd3))
      (versionFieldLit (newVersionString dd1 dd2)) content

/-- Strict matcher for the §4.1 grammar (spec-side definition used to state
claims C2 and C5): MAJOR "." MINOR "." PATCH, optionally "-alpha." N,
optionally "-dev." M, each field a nonempty digit run, nothing else. -/
def matchGrammar (s : Str) : Option GV :=
  match matchTriple s with
  | none => none
  | some (dd1, dd2, dd3, r5) =>
    if r5.isEmpty then some ⟨dd1, dd2, dd3, none⟩
    else if isPre alphaSep r5 then
      match munchDigits (r5.drop alphaSep.length) with
      | ([], _) => none
      | (aa, r6) =>
        if r6.isEmpty then some ⟨dd1, dd2, dd3, some (aa, none)⟩
        else if isPre devSep r6 then
          match munchDigits (r6.drop devSep.length) with
          | ([], _) => none
          | (ddv, r7) =>
            if r7.isEmpty then some ⟨dd1, dd2, dd3, some (aa, some ddv)⟩ else none
        else none
    else none

/-- A string is in the §4.1 grammar after the leading range markers are
stripped. -/
def inGrammar (s : Str) : Bool := (matchGrammar (stripRange s)).isSome

/-! ### General lemmas about the string toolkit -/

theorem isPre_iff (p s : Str) : isPre p s = true ↔ ∃ t, s = p ++ t := by
  induction p generalizing s with
  | nil => simp [isPre]
  | cons a as ih =>
    cases s with
    | nil => simp [isPre]
    | cons b bs =>
      simp only [isPre, Bool.and_eq_true, beq_iff_eq, ih, List.cons_append]
      constructor
      · rintro ⟨rfl, t, rfl⟩
        exact ⟨t, rfl⟩
      · rintro ⟨t, h⟩
        injection h with hab hbs
        exact ⟨hab.symm, t, hbs⟩

theorem isDigit_ne (c : Char) (h : c.isDigit = true) (x : Char) (hx : x.isDigit = false) :
    c ≠ x := by
  intro he
  rw [he, hx] at h
  exact Bool.false_ne_true h

theorem digit_not_ws (c : Char) (h : c.isDigit = true) : isPyWS c = false := by
  by_contra hc
  have h1 : isPyWS c = true := by revert hc; cases isPyWS c <;> simp
  simp only [isPyWS, Bool.or_eq_true, beq_iff_eq] at h1
  rcases h1 with ((((rfl | rfl) | rfl) | rfl) | rfl) | rfl <;> exact absurd h (by decide)

theorem dropWhile_eq_self (p : Char → Bool) (s : Str) (h : ∀ c ∈ s, p c = false) :
    s.dropWhile p = s := by
  cases s with
  | nil => rfl
  | cons a as =>
    rw [List.dropWhile_cons, h a (List.mem_cons_self a as)]
    simp

theorem pyStrip_digits (s : Str) (h : ∀ c ∈ s, c.isDigit = true) : pyStrip s = s := by
  have hws : ∀ c ∈ s, isPyWS c = false := fun c hc => digit_not_ws c (h c hc)
  unfold pyStrip
  rw [dropWhile_eq_self _ _ hws]
  rw [dropWhile_eq_self _ _ (fun c hc => hws c (List.mem_reverse.1 hc))]
  exact List.reverse_reverse s

theorem listLT_irrefl {α : Type} [LinearOrder α] (l : List α) : listLT l l = false := by
  induction l with
  | nil => rfl
  | cons a as ih => simp [listLT, ih]

theorem listLT_trans {α : Type} [LinearOrder α] (a : List α) :
    ∀ b c : List α, listLT a b = true → listLT b c = true → listLT a c = true := by
  induction a with
  | nil =>
    intro b c h1 h2
    cases b with
    | nil => simp [listLT] at h1
    | cons y ys =>
      cases c with
      | nil => simp [listLT] at h2
      | cons z zs => simp [listLT]
  | cons x xs ih =>
    intro b c h1 h2
    cases b with
    | nil => simp [listLT] at h1
    | cons y ys =>
      cases c with
      | nil => simp [listLT] at h2
      | cons z zs =>
        simp only [listLT] at h1 h2 ⊢
        rcases lt_trichotomy x y with hxy | rfl | hxy
        · rcases lt_trichotomy y z with hyz | rfl | hyz
          · simp [lt_trans hxy hyz]
          · simp [hxy]
          · rw [if_neg (lt_asymm hyz), if_pos hyz] at h2
            exact absurd h2 (by simp)
        · rw [if_neg (lt_irrefl x), if_neg (lt_irrefl x)] at h1
          rcases lt_trichotomy x z with hxz | rfl | hxz
          · simp [hxz]
          · rw [if_neg (lt_irrefl x), if_neg (lt_irrefl x)] at h2 ⊢
            exact ih ys zs h1 h2
          · rw [if_neg (lt_asymm hxz), if_pos hxz] at h2
            exact absurd h2 (by simp)
        · rw [if_neg (lt_asymm hxy), if_pos hxy] at h1
          exact absurd h1 (by simp)

theorem listLT_eq_of_not {α : Type} [LinearOrder α] (a : List α) :
    ∀ b : List α, listLT a b = false → listLT b a = false → a = b := by
  induction a with
  | nil =>
    intro b h1 _
    cases b with
    | nil => rfl
    | cons y ys => simp [listLT] at h1
  | cons x xs ih =>
    intro b h1 h2
    cases b with
    | nil => simp [listLT] at h2
    | cons y ys =>
      simp only [listLT] at h1 h2
      rcases lt_trichotomy x y with hxy | rfl | hxy
      · rw [if_pos hxy] at h1
        exact absurd h1 (by simp)
      · rw [if_neg (lt_irrefl x), if_neg (lt_irrefl x)] at h1 h2
        rw [ih ys h1 h2]
      · rw [if_pos hxy] at h2
        exact absurd h2 (by simp)

theorem listLT_asymm {α : Type} [LinearOrder α] (a b : List α) (h : listLT a b = true) :
    listLT b a = false := by
  by_contra hc
  have h2 : listLT b a = true := by revert hc; cases listLT b a <;> simp
  have h3 := listLT_trans a b a h h2
  rw [listLT_irrefl] at h3
  exact Bool.false_ne_true h3

theorem listLT_lt_head {α : Type} [LinearOrder α] (a b : α) (h : a < b) (as bs : List α) :
    listLT (a :: as) (b :: bs) = true := by
  simp [listLT, h]

theorem listLT_gt_head {α : Type} [LinearOrder α] (a b : α) (h : b < a) (as bs : List α) :
    listLT (a :: as) (b :: bs) = false := by
  simp [listLT, h, lt_asymm h]

theorem listLT_head_eq {α : Type} [LinearOrder α] (a : α) (as bs : List α) :
    listLT (a :: as) (a :: bs) = listLT as bs := by
  simp [listLT, lt_irrefl]

theorem ite_lt_decide (a b : Nat) :
    (if a < b then true else if b < a then false else false) = decide (a < b) := by
  rcases Nat.lt_trichotomy a b with h | rfl | h
  · simp [h]
  · simp [lt_irrefl]
  · simp [h, Nat.lt_asymm h]

theorem rsplitOnce_none (sep : Str) (c : Char) (hc : c ∈ sep) (s : Str) (hs : c ∉ s) :
    rsplitOnce sep s = none := by
  induction s with
  | nil =>
    have hne : sep.isEmpty = false := by
      cases sep with
      | nil => simp at hc
      | cons a as => rfl
    simp [rsplitOnce, hne]
  | cons a as ih =>
    have h1 : c ∉ as := fun h => hs (List.mem_cons_of_mem _ h)
    simp only [rsplitOnce, ih h1]
    have hp : isPre sep (a :: as) = false := by
      by_contra hcc
      have h' : isPre sep (a :: as) = true := by revert hcc; cases isPre sep (a :: as) <;> simp
      obtain ⟨t, ht⟩ := (isPre_iff _ _).1 h'
      exact hs (ht ▸ List.mem_append_left t hc)
    simp [hp]

theorem rsplitOnce_append (sep y : Str) (hsep : sep ≠ [])
    (hy : rsplitOnce sep (sep.drop 1 ++ y) = none) :
    ∀ x : Str, rsplitOnce sep (x ++ sep ++ y) = some (x, y) := by
  intro x
  induction x with
  | nil =>
    cases sep with
    | nil => exact absurd rfl hsep
    | cons s0 srest =>
      have hdrop : List.drop 1 (s0 :: srest) = srest := rfl
      rw [hdrop] at hy
      show rsplitOnce (s0 :: srest) (s0 :: (srest ++ y)) = some ([], y)
      have hp : isPre (s0 :: srest) (s0 :: (srest ++ y)) = true :=
        (isPre_iff _ _).2 ⟨y, by simp⟩
      have hd : (s0 :: (srest ++ y)).drop (s0 :: srest).length = y := by
        rw [show s0 :: (srest ++ y) = (s0 :: srest) ++ y from rfl]
        exact List.drop_left _ _
      simp only [rsplitOnce, hy, hp, if_true, hd]
  | cons a as ih =>
    show rsplitOnce sep (a :: (as ++ sep ++ y)) = some (a :: as, y)
    simp only [rsplitOnce, ih]

theorem pyIntCore_digits (s : Str) (h : ∀ c ∈ s, c.isDigit = true) :
    ∀ acc : Nat, pyIntCore acc s = some (s.foldl (fun a c => 10 * a + digitVal c) acc) := by
  induction s with
  | nil => intro acc; rfl
  | cons c cs ih =>
    intro acc
    have hc := h c (List.mem_cons_self c cs)
    have ih' := ih (fun x hx => h x (List.mem_cons_of_mem _ hx))
    unfold pyIntCore
    simp [hc, ih', List.foldl_cons]

theorem digits_all (s : Str) (h : isDigits s = true) : ∀ c ∈ s, c.isDigit = true := by
  simp only [isDigits, Bool.and_eq_true, List.all_eq_true] at h
  exact fun c hc => h.2 c hc

theorem pyInt_digits (s : Str) (h : isDigits s = true) :
    pyInt s = some ((digitsToNat s : Int)) := by
  cases s with
  | nil => simp [isDigits] at h
  | cons c cs =>
    have hall : ∀ x ∈ c :: cs, x.isDigit = true := digits_all _ h
    have hc := hall c (List.mem_cons_self c cs)
    have hcs : ∀ x ∈ cs, x.isDigit = true := fun x hx => hall x (List.mem_cons_of_mem _ hx)
    have hplus : (c == '+') = false := by
      simp only [beq_eq_false_iff_ne, ne_eq]
      exact isDigit_ne c hc '+' (by decide)
    have hminus : (c == '-') = false := by
      simp only [beq_eq_false_iff_ne, ne_eq]
      exact isDigit_ne c hc '-' (by decide)
    unfold pyInt
    rw [pyStrip_digits _ hall]
    simp [pyIntSigned, hplus, hminus, pyIntStart, hc, pyIntCore_digits cs hcs,
      digitsToNat, List.foldl_cons]

theorem splitOnChar_not_mem (c : Char) (s : Str) (h : c ∉ s) : splitOnChar c s = [s] := by
  induction s with
  | nil => rfl
  | cons a as ih =>
    have ha : (a == c) = false := by
      simp only [beq_eq_false_iff_ne, ne_eq]
      intro heq; subst heq; exact h (List.mem_cons_self a as)
    have h2 : c ∉ as := fun hm => h (List.mem_cons_of_mem _ hm)
    simp [splitOnChar, ha, ih h2]

theorem splitOnChar_append (c : Char) (x y : Str) (hx : c ∉ x) :
    splitOnChar c (x ++ c :: y) = x :: splitOnChar c y := by
  induction x with
  | nil => simp [splitOnChar]
  | cons a as ih =>
    have ha : (a == c) = false := by
      simp only [beq_eq_false_iff_ne, ne_eq]
      intro heq; subst heq; exact hx (List.mem_cons_self a as)
    have h2 : c ∉ as := fun hm => hx (List.mem_cons_of_mem _ hm)
    simp only [List.cons_append, splitOnChar, ha, Bool.false_eq_true, if_false,
      List.append_eq, ih h2]

theorem mapIntList_three (d1 d2 d3 : Str) (h1 : isDigits d1 = true) (h2 : isDigits d2 = true)
    (h3 : isDigits d3 = true) :
    mapIntList [d1, d2, d3] =
      some [(digitsToNat d1 : Int), (digitsToNat d2 : Int), (digitsToNat d3 : Int)] := by
  simp [mapIntList, pyInt_digits _ h1, pyInt_digits _ h2, pyInt_digits _ h3]

theorem not_mem_append (x : Char) (a b : Str) (ha : x ∉ a) (hb : x ∉ b) : x ∉ a ++ b := by
  intro hm
  rcases List.mem_append.1 hm with h | h
  · exact ha h
  · exact hb h

theorem not_mem_cons (x c : Char) (s : Str) (hne : x ≠ c) (hs : x ∉ s) : x ∉ c :: s := by
  intro hm
  rcases List.mem_cons.1 hm with h | h
  · exact hne h
  · exact hs h

theorem not_mem_digits (x : Char) (hx : x.isDigit = false) (s : Str) (hs : isDigits s = true) :
    x ∉ s := by
  intro hm
  have h := digits_all s hs x hm
  rw [hx] at h
  exact Bool.false_ne_true h

theorem not_mem_verPart (x : Char) (hx : x.isDigit = false) (hdot : x ≠ '.')
    (d1 d2 d3 : Str) (h1 : isDigits d1 = true) (h2 : isDigits d2 = true)
    (h3 : isDigits d3 = true) : x ∉ d1 ++ '.' :: (d2 ++ '.' :: d3) :=
  not_mem_append x _ _ (not_mem_digits x hx d1 h1)
    (not_mem_cons x '.' _ hdot
      (not_mem_append x _ _ (not_mem_digits x hx d2 h2)
        (not_mem_cons x '.' d3 hdot (not_mem_digits x hx d3 h3))))

theorem dot_split_three (d1 d2 d3 : Str) (h1 : isDigits d1 = true) (h2 : isDigits d2 = true)
    (h3 : isDigits d3 = true) :
    splitOnChar '.' (d1 ++ '.' :: (d2 ++ '.' :: d3)) = [d1, d2, d3] := by
  have hd1 : ('.' : Char) ∉ d1 := not_mem_digits '.' (by decide) d1 h1
  have hd2 : ('.' : Char) ∉ d2 := not_mem_digits '.' (by decide) d2 h2
  have hd3 : ('.' : Char) ∉ d3 := not_mem_digits '.' (by decide) d3 h3
  rw [splitOnChar_append '.' d1 _ hd1, splitOnChar_append '.' d2 _ hd2,
    splitOnChar_not_mem '.' d3 hd3]

theorem splitSuffixNum_no_dev (v : Str) (hd : 'd' ∉ v) :
    splitSuffixNum devSep v = some (v, none) := by
  unfold splitSuffixNum
  rw [rsplitOnce_none devSep 'd' (by decide) v hd]

theorem splitSuffixNum_no_alpha (v : Str) (ha : 'a' ∉ v) :
    splitSuffixNum alphaSep v = some (v, none) := by
  unfold splitSuffixNum
  rw [rsplitOnce_none alphaSep 'a' (by decide) v ha]

theorem rsplit_dev_boundary (x dd : Str) (hdd : isDigits dd = true) :
    rsplitOnce devSep (x ++ devSep ++ dd) = some (x, dd) :=
  rsplitOnce_append devSep dd (by decide)
    (rsplitOnce_none devSep '-' (by decide) _
      (not_mem_append '-' _ _ (by decide) (not_mem_digits '-' (by decide) dd hdd))) x

theorem rsplit_alpha_boundary (x aa : Str) (haa : isDigits aa = true) :
    rsplitOnce alphaSep (x ++ alphaSep ++ aa) = some (x, aa) :=
  rsplitOnce_append alphaSep aa (by decide)
    (rsplitOnce_none alphaSep '-' (by decide) _
      (not_mem_append '-' _ _ (by decide) (not_mem_digits '-' (by decide) aa haa))) x

theorem splitSuffixNum_dev (x dd : Str) (hdd : isDigits dd = true) :
    splitSuffixNum devSep (x ++ devSep ++ dd) = some (x, some ((digitsToNat dd : Int))) := by
  unfold splitSuffixNum
  rw [rsplit_dev_boundary x dd hdd]
  simp [pyInt_digits dd hdd]

theorem splitSuffixNum_alpha (x aa : Str) (haa : isDigits aa = true) :
    splitSuffixNum alphaSep (x ++ alphaSep ++ aa) = some (x, some ((digitsToNat aa : Int))) := by
  unfold splitSuffixNum
  rw [rsplit_alpha_boundary x aa haa]
  simp [pyInt_digits aa haa]

theorem parseCore_render (g : GV) (hg : g.valid) :
    parseVersionTupleCore g.render = some g.tuple := by
  obtain ⟨d1, d2, d3, pre⟩ := g
  obtain ⟨h1, h2, h3, hpre⟩ := hg
  have e3 : mapIntList (splitOnChar '.' (d1 ++ '.' :: (d2 ++ '.' :: d3))) =
      some [(digitsToNat d1 : Int), (digitsToNat d2 : Int), (digitsToNat d3 : Int)] := by
    rw [dot_split_three d1 d2 d3 h1 h2 h3]
    exact mapIntList_three d1 d2 d3 h1 h2 h3
  cases pre with
  | none =>
    have hd : 'd' ∉ d1 ++ '.' :: (d2 ++ '.' :: d3) :=
      not_mem_verPart 'd' (by decide) (by decide) d1 d2 d3 h1 h2 h3
    have ha : 'a' ∉ d1 ++ '.' :: (d2 ++ '.' :: d3) :=
      not_mem_verPart 'a' (by decide) (by decide) d1 d2 d3 h1 h2 h3
    simp [GV.render, parseVersionTupleCore, splitSuffixNum_no_dev _ hd,
      splitSuffixNum_no_alpha _ ha, e3, assembleTuple, GV.tuple]
  | some pa =>
    obtain ⟨aa, dv⟩ := pa
    cases dv with
    | none =>
      have haa : isDigits aa = true := hpre
      have hd : 'd' ∉ d1 ++ '.' :: (d2 ++ '.' :: (d3 ++ (alphaSep ++ aa))) := by
        have h := not_mem_append 'd' ((d1 ++ '.' :: (d2 ++ '.' :: d3)) ++ alphaSep) aa
          (not_mem_append 'd' (d1 ++ '.' :: (d2 ++ '.' :: d3)) alphaSep
            (not_mem_verPart 'd' (by decide) (by decide) d1 d2 d3 h1 h2 h3) (by decide))
          (not_mem_digits 'd' (by decide) aa haa)
        intro hm
        apply h
        rw [show (d1 ++ '.' :: (d2 ++ '.' :: d3)) ++ alphaSep ++ aa =
              d1 ++ '.' :: (d2 ++ '.' :: (d3 ++ (alphaSep ++ aa))) from by simp]
        exact hm
      have e2 : splitSuffixNum alphaSep (d1 ++ '.' :: (d2 ++ '.' :: (d3 ++ (alphaSep ++ aa)))) =
          some (d1 ++ '.' :: (d2 ++ '.' :: d3), some ((digitsToNat aa : Int))) := by
        rw [show d1 ++ '.' :: (d2 ++ '.' :: (d3 ++ (alphaSep ++ aa))) =
              (d1 ++ '.' :: (d2 ++ '.' :: d3)) ++ alphaSep ++ aa from by simp]
        exact splitSuffixNum_alpha _ aa haa
      simp [GV.render, parseVersionTupleCore, splitSuffixNum_no_dev _ hd, e2, e3,
        assembleTuple, GV.tuple]
    | some dd =>
      obtain ⟨haa, hdd⟩ := hpre
      have e1 : splitSuffixNum devSep
          (d1 ++ '.' :: (d2 ++ '.' :: (d3 ++ (alphaSep ++ (aa ++ (devSep ++ dd)))))) =
          some (d1 ++ '.' :: (d2 ++ '.' :: (d3 ++ (alphaSep ++ aa))),
            some ((digitsToNat dd : Int))) := by
        rw [show d1 ++ '.' :: (d2 ++ '.' :: (d3 ++ (alphaSep ++ (aa ++ (devSep ++ dd))))) =
              (d1 ++ '.' :: (d2 ++ '.' :: (d3 ++ (alphaSep ++ aa)))) ++ devSep ++ dd
            from by simp]
        exact splitSuffixNum_dev _ dd hdd
      have e2 : splitSuffixNum alphaSep (d1 ++ '.' :: (d2 ++ '.' :: (d3 ++ (alphaSep ++ aa)))) =
          some (d1 ++ '.' :: (d2 ++ '.' :: d3), some ((digitsToNat aa : Int))) := by
        rw [show d1 ++ '.' :: (d2 ++ '.' :: (d3 ++ (alphaSep ++ aa))) =
              (d1 ++ '.' :: (d2 ++ '.' :: d3)) ++ alphaSep ++ aa from by simp]
        exact splitSuffixNum_alpha _ aa haa
      simp [GV.render, parseVersionTupleCore, e1, e2, e3, assembleTuple, GV.tuple]

theorem stripRange_render (g : GV) (hg : g.valid) : stripRange g.render = g.render := by
  obtain ⟨d1, d2, d3, pre⟩ := g
  obtain ⟨h1, -, -, -⟩ := hg
  cases d1 with
  | nil => simp [isDigits] at h1
  | cons c cs =>
    have hc : c.isDigit = true := digits_all _ h1 c (List.mem_cons_self c cs)
    have ht : (c == '~') = false := by
      simp only [beq_eq_false_iff_ne, ne_eq]
      exact isDigit_ne c hc '~' (by decide)
    have hh : (c == '^') = false := by
      simp only [beq_eq_false_iff_ne, ne_eq]
      exact isDigit_ne c hc '^' (by decide)
    simp only [GV.render, List.cons_append]
    unfold stripRange
    rw [List.dropWhile_cons]
    simp [ht, hh]

theorem parse_render (g : GV) (hg : g.valid) : parseVersionTuple g.render = some g.tuple := by
  unfold parseVersionTuple
  rw [stripRange_render g hg, parseCore_render g hg]

theorem listLT_cons_nat (m n : Nat) (as bs : PyTuple) :
    listLT (((m : Int) : WithTop Int) :: as) (((n : Int) : WithTop Int) :: bs) =
      if m < n then true else if n < m then false else listLT as bs := by
  rcases Nat.lt_trichotomy m n with h | h | h
  · have h1 : ((m : Int) : WithTop Int) < ((n : Int) : WithTop Int) := by exact_mod_cast h
    simp [listLT, h1, h]
  · rw [h]
    simp [listLT, lt_irrefl]
  · have h1 : ((n : Int) : WithTop Int) < ((m : Int) : WithTop Int) := by exact_mod_cast h
    have h2 : ¬ ((m : Int) : WithTop Int) < ((n : Int) : WithTop Int) := lt_asymm h1
    simp [listLT, h1, h2, h, Nat.lt_asymm h]

theorem listLT_coe_top (v : Int) (as bs : PyTuple) :
    listLT ((v : WithTop Int) :: as) ((⊤ : WithTop Int) :: bs) = true :=
  listLT_lt_head _ _ (WithTop.coe_lt_top v) as bs

theorem listLT_top_coe (v : Int) (as bs : PyTuple) :
    listLT ((⊤ : WithTop Int) :: as) ((v : WithTop Int) :: bs) = false :=
  listLT_gt_head _ _ (WithTop.coe_lt_top v) as bs

theorem listLT_rel_none_none :
    listLT [((1 : Int) : WithTop Int), ((0 : Int) : WithTop Int)]
      [((1 : Int) : WithTop Int), ((0 : Int) : WithTop Int)] = false := by decide

theorem listLT_rel_some_none (d : Nat) :
    listLT [((0 : Int) : WithTop Int), ((d : Int) : WithTop Int)]
      [((1 : Int) : WithTop Int), ((0 : Int) : WithTop Int)] = true :=
  listLT_lt_head _ _ (by decide) _ _

theorem listLT_rel_none_some (d : Nat) :
    listLT [((1 : Int) : WithTop Int), ((0 : Int) : WithTop Int)]
      [((0 : Int) : WithTop Int), ((d : Int) : WithTop Int)] = false :=
  listLT_gt_head _ _ (by decide) _ _

theorem listLT_rel_some_some (d1 d2 : Nat) :
    listLT [((0 : Int) : WithTop Int), ((d1 : Int) : WithTop Int)]
      [((0 : Int) : WithTop Int), ((d2 : Int) : WithTop Int)] = decide (d1 < d2) := by
  rw [listLT_head_eq, listLT_cons_nat]
  rw [show listLT ([] : PyTuple) [] = false from rfl]
  exact ite_lt_decide d1 d2

theorem listLT_nil : listLT ([] : PyTuple) [] = false := rfl

theorem tuple_lt_spec (x y : GV) : listLT x.tuple y.tuple = specOrderLT x y := by
  obtain ⟨a1, a2, a3, p⟩ := x
  obtain ⟨b1, b2, b3, q⟩ := y
  rcases p with _ | ⟨aa, _ | ad⟩ <;> rcases q with _ | ⟨bb, _ | bd⟩ <;>
    simp only [GV.tuple, specOrderLT, listLT_cons_nat, listLT_top_coe, listLT_coe_top,
      listLT_head_eq, listLT_rel_none_none, listLT_rel_some_none, listLT_rel_none_some,
      listLT_rel_some_some, listLT_nil, ite_lt_decide]

theorem munchDigits_all (d : Str) (hd : ∀ c ∈ d, c.isDigit = true) :
    ∀ r : Str, (∀ c cs, r = c :: cs → c.isDigit = false) → munchDigits (d ++ r) = (d, r) := by
  induction d with
  | nil =>
    intro r hr
    cases r with
    | nil => rfl
    | cons c cs => simp [munchDigits, hr c cs rfl]
  | cons a as ih =>
    intro r hr
    have ha := hd a (List.mem_cons_self a as)
    have ih' := ih (fun c hc => hd c (List.mem_cons_of_mem _ hc)) r hr
    simp [munchDigits, ha, ih']

theorem dropWhile_head_false (p : Char → Bool) (s : Str)
    (h : ∀ c cs, s = c :: cs → p c = false) : s.dropWhile p = s := by
  cases s with
  | nil => rfl
  | cons a as =>
    rw [List.dropWhile_cons, h a as rfl]
    simp

theorem pyStrip_ends (s : Str) (h1 : ∀ c cs, s = c :: cs → isPyWS c = false)
    (h2 : ∀ c cs, s.reverse = c :: cs → isPyWS c = false) : pyStrip s = s := by
  unfold pyStrip
  rw [dropWhile_head_false _ _ h1, dropWhile_head_false _ _ h2, List.reverse_reverse]

theorem reverse_append_digits (x dd : Str) (hdd : isDigits dd = true) :
    ∀ c cs, (x ++ dd).reverse = c :: cs → c.isDigit = true := by
  intro c cs hc
  rw [List.reverse_append] at hc
  cases hdr : dd.reverse with
  | nil =>
    have hnil : dd = [] := by
      have := congrArg List.reverse hdr
      simpa using this
    rw [hnil] at hdd
    simp [isDigits] at hdd
  | cons b bs =>
    rw [hdr] at hc
    simp only [List.cons_append] at hc
    injection hc with hbc hrest2
    rw [← hbc]
    have hmem : b ∈ dd := by
      have hm1 : b ∈ dd.reverse := by rw [hdr]; exact List.mem_cons_self b bs
      exact List.mem_reverse.1 hm1
    exact digits_all dd hdd _ hmem

theorem render_head (g : GV) (hg : g.valid) :
    ∀ c cs, g.render = c :: cs → c.isDigit = true := by
  obtain ⟨d1, d2, d3, pre⟩ := g
  obtain ⟨h1, -, -, -⟩ := hg
  cases d1 with
  | nil => simp [isDigits] at h1
  | cons a as =>
    intro c cs hc
    simp only [GV.render, List.cons_append] at hc
    injection hc with hac hrest
    rw [← hac]
    exact digits_all _ h1 a (List.mem_cons_self a as)

theorem pepStripV_head (s : Str) (h : ∀ c cs, s = c :: cs → (c == 'v') = false) :
    pepStripV s = s := by
  cases s with
  | nil => rfl
  | cons c cs => simp [pepStripV, h c cs rfl]

theorem pepReleaseTail_stop (fuel : Nat) (s : Str)
    (hs : ∀ c cs, s = c :: cs → (c == '.') = false) : pepReleaseTail fuel s = ([], s) := by
  cases fuel with
  | zero => rfl
  | succ n =>
    cases s with
    | nil => rfl
    | cons c cs => simp [pepReleaseTail, hs c cs rfl]

theorem pepReleaseTail_step (fuel : Nat) (d rest : Str) (hd : isDigits d = true)
    (hrest : ∀ c cs, rest = c :: cs → c.isDigit = false)
    (ds : List Nat) (r' : Str) (hrec : pepReleaseTail fuel rest = (ds, r')) :
    pepReleaseTail (fuel + 1) ('.' :: (d ++ rest)) = (digitsToNat d :: ds, r') := by
  have hm : munchDigits (d ++ rest) = (d, rest) :=
    munchDigits_all d (digits_all d hd) rest hrest
  cases d with
  | nil => simp [isDigits] at hd
  | cons c cs =>
    simp only [List.cons_append] at hm
    simp [pepReleaseTail, hm, hrec]

theorem render_last (g : GV) (hg : g.valid) :
    ∀ c cs, g.render.reverse = c :: cs → c.isDigit = true := by
  obtain ⟨d1, d2, d3, pre⟩ := g
  obtain ⟨h1, h2, h3, hpre⟩ := hg
  cases pre with
  | none =>
    have e : GV.render ⟨d1, d2, d3, none⟩ = (d1 ++ '.' :: d2 ++ ['.']) ++ d3 := by
      simp [GV.render]
    rw [e]
    exact reverse_append_digits _ d3 h3
  | some pa =>
    obtain ⟨aa, dv⟩ := pa
    cases dv with
    | none =>
      have haa : isDigits aa = true := hpre
      have e : GV.render ⟨d1, d2, d3, some (aa, none)⟩ =
          (d1 ++ '.' :: d2 ++ '.' :: d3 ++ alphaSep) ++ aa := by
        simp [GV.render]
      rw [e]
      exact reverse_append_digits _ aa haa
    | some dd =>
      obtain ⟨haa, hdd⟩ := hpre
      have e : GV.render ⟨d1, d2, d3, some (aa, some dd)⟩ =
          (d1 ++ '.' :: d2 ++ '.' :: d3 ++ alphaSep ++ aa ++ devSep) ++ dd := by
        simp [GV.render]
      rw [e]
      exact reverse_append_digits _ dd hdd

theorem pepPre_nil : pepPre [] = (none, []) := rfl

theorem pepDev_nil : pepDev [] = (none, []) := rfl

theorem pepPre_alpha (aa rest2 : Str) (haa : isDigits aa = true)
    (hrest : ∀ c cs, rest2 = c :: cs → c.isDigit = false) :
    pepPre (alphaSep ++ (aa ++ rest2)) = (some (digitsToNat aa), rest2) := by
  have hm : munchDigits (aa ++ rest2) = (aa, rest2) :=
    munchDigits_all aa (digits_all aa haa) rest2 hrest
  have egoal : pepPre (alphaSep ++ (aa ++ rest2)) =
      (match munchDigits (aa ++ rest2) with
       | ([], _) => (some 0, aa ++ rest2)
       | (d, r) => (some (digitsToNat d), r)) := rfl
  rw [egoal, hm]
  cases aa with
  | nil => simp [isDigits] at haa
  | cons a as => rfl

theorem pepDev_dev (dd : Str) (hdd : isDigits dd = true) :
    pepDev (devSep ++ dd) = (some (digitsToNat dd), []) := by
  have hm : munchDigits (dd ++ []) = (dd, []) :=
    munchDigits_all dd (digits_all dd hdd) [] (fun c cs h => by cases h)
  rw [List.append_nil] at hm
  have egoal : pepDev (devSep ++ dd) =
      (match munchDigits dd with
       | ([], _) => (some 0, dd)
       | (d, r) => (some (digitsToNat d), r)) := rfl
  rw [egoal, hm]
  cases dd with
  | nil => simp [isDigits] at hdd
  | cons a as => rfl

theorem pepReleaseTail_last (fuel : Nat) (d rest : Str) (hd : isDigits d = true)
    (hrd : ∀ c cs, rest = c :: cs → c.isDigit = false)
    (hrdot : ∀ c cs, rest = c :: cs → (c == '.') = false) :
    pepReleaseTail (fuel + 1) ('.' :: (d ++ rest)) = ([digitsToNat d], rest) :=
  pepReleaseTail_step fuel d rest hd hrd [] rest (pepReleaseTail_stop fuel rest hrdot)

theorem pepReleaseTail_two (d2 d3 rest : Str) (h2 : isDigits d2 = true)
    (h3 : isDigits d3 = true)
    (hrd : ∀ c cs, rest = c :: cs → c.isDigit = false)
    (hrdot : ∀ c cs, rest = c :: cs → (c == '.') = false) :
    pepReleaseTail ('.' :: (d2 ++ '.' :: (d3 ++ rest))).length
      ('.' :: (d2 ++ '.' :: (d3 ++ rest))) = ([digitsToNat d2, digitsToNat d3], rest) := by
  rw [show ('.' :: (d2 ++ '.' :: (d3 ++ rest))).length =
        (d2 ++ '.' :: (d3 ++ rest)).length + 1 from rfl]
  obtain ⟨k, hk⟩ : ∃ k, (d2 ++ '.' :: (d3 ++ rest)).length = k + 1 :=
    ⟨d2.length + (d3 ++ rest).length, by
      simp only [List.length_append, List.length_cons]
      omega⟩
  have hrec : pepReleaseTail (d2 ++ '.' :: (d3 ++ rest)).length ('.' :: (d3 ++ rest)) =
      ([digitsToNat d3], rest) := by
    rw [hk]
    exact pepReleaseTail_last k d3 rest h3 hrd hrdot
  exact pepReleaseTail_step _ d2 ('.' :: (d3 ++ rest)) h2
    (fun c cs h => by injection h with e _; rw [← e]; decide) _ _ hrec

theorem pep440_render (g : GV) (hg : g.valid) : pep440Parse g.render = some g.pep := by
  have hstrip : pyStrip g.render = g.render :=
    pyStrip_ends _ (fun c cs hc => digit_not_ws c (render_head g hg c cs hc))
      (fun c cs hc => digit_not_ws c (render_last g hg c cs hc))
  have hv : pepStripV g.render = g.render :=
    pepStripV_head _ (fun c cs hc => by
      have hdg := render_head g hg c cs hc
      simp only [beq_eq_false_iff_ne, ne_eq]
      exact isDigit_ne c hdg 'v' (by decide))
  obtain ⟨d1, d2, d3, pre⟩ := g
  obtain ⟨h1, h2, h3, hpre⟩ := hg
  cases d1 with
  | nil => simp [isDigits] at h1
  | cons a as =>
  cases pre with
  | none =>
    have er : GV.render ⟨a :: as, d2, d3, none⟩ =
        a :: (as ++ '.' :: (d2 ++ '.' :: (d3 ++ []))) := by
      simp [GV.render]
    have hm1 : munchDigits (a :: (as ++ '.' :: (d2 ++ '.' :: (d3 ++ [])))) =
        (a :: as, '.' :: (d2 ++ '.' :: (d3 ++ []))) := by
      have h := munchDigits_all (a :: as) (digits_all _ h1) ('.' :: (d2 ++ '.' :: (d3 ++ [])))
        (fun c cs hcc => by injection hcc with e _; rw [← e]; decide)
      simp only [List.cons_append] at h
      exact h
    have er1 := pepReleaseTail_two d2 d3 [] h2 h3 (fun c cs h => by cases h)
      (fun c cs h => by cases h)
    rw [er] at hstrip hv ⊢
    simp only [pep440Parse, hstrip, hv, hm1, er1, pepPre_nil, pepDev_nil]
    simp [GV.pep]
  | some pa =>
    obtain ⟨aa, dv⟩ := pa
    cases dv with
    | none =>
      have haa : isDigits aa = true := hpre
      have er : GV.render ⟨a :: as, d2, d3, some (aa, none)⟩ =
          a :: (as ++ '.' :: (d2 ++ '.' :: (d3 ++ (alphaSep ++ (aa ++ []))))) := by
        simp [GV.render]
      have hm1 : munchDigits
          (a :: (as ++ '.' :: (d2 ++ '.' :: (d3 ++ (alphaSep ++ (aa ++ [])))))) =
          (a :: as, '.' :: (d2 ++ '.' :: (d3 ++ (alphaSep ++ (aa ++ []))))) := by
        have h := munchDigits_all (a :: as) (digits_all _ h1)
          ('.' :: (d2 ++ '.' :: (d3 ++ (alphaSep ++ (aa ++ [])))))
          (fun c cs hcc => by injection hcc with e _; rw [← e]; decide)
        simp only [List.cons_append] at h
        exact h
      have er1 := pepReleaseTail_two d2 d3 (alphaSep ++ (aa ++ [])) h2 h3
        (fun c cs h => by injection h with e _; rw [← e]; decide)
        (fun c cs h => by injection h with e _; rw [← e]; decide)
      have epre := pepPre_alpha aa [] haa (fun c cs h => by cases h)
      rw [er] at hstrip hv ⊢
      simp only [pep440Parse, hstrip, hv, hm1, er1, epre, pepDev_nil]
      simp [GV.pep]
    | some dd =>
      obtain ⟨haa, hdd⟩ := hpre
      have er : GV.render ⟨a :: as, d2, d3, some (aa, some dd)⟩ =
          a :: (as ++ '.' :: (d2 ++ '.' :: (d3 ++ (alphaSep ++ (aa ++ (devSep ++ dd)))))) := by
        simp [GV.render]
      have hm1 : munchDigits
          (a :: (as ++ '.' :: (d2 ++ '.' :: (d3 ++ (alphaSep ++ (aa ++ (devSep ++ dd))))))) =
          (a :: as, '.' :: (d2 ++ '.' :: (d3 ++ (alphaSep ++ (aa ++ (devSep ++ dd)))))) := by
        have h := munchDigits_all (a :: as) (digits_all _ h1)
          ('.' :: (d2 ++ '.' :: (d3 ++ (alphaSep ++ (aa ++ (devSep ++ dd))))))
          (fun c cs hcc => by injection hcc with e _; rw [← e]; decide)
        simp only [List.cons_append] at h
        exact h
      have er1 := pepReleaseTail_two d2 d3 (alphaSep ++ (aa ++ (devSep ++ dd))) h2 h3
        (fun c cs h => by injection h with e _; rw [← e]; decide)
        (fun c cs h => by injection h with e _; rw [← e]; decide)
      have epre := pepPre_alpha aa (devSep ++ dd) haa
        (fun c cs h => by injection h with e _; rw [← e]; decide)
      have edev := pepDev_dev dd hdd
      rw [er] at hstrip hv ⊢
      simp only [pep440Parse, hstrip, hv, hm1, er1, epre, edev]
      simp [GV.pep]

theorem stripZeros_cons (x : Nat) (xs : List Nat) :
    (stripZeros (x :: xs) = x :: stripZeros xs ∧ ¬(x = 0 ∧ stripZeros xs = [])) ∨
      (x = 0 ∧ stripZeros xs = [] ∧ stripZeros (x :: xs) = []) := by
  simp only [stripZeros]
  cases hst : stripZeros xs with
  | nil =>
    by_cases h0 : x = 0
    · right
      exact ⟨h0, rfl, by simp [h0]⟩
    · left
      constructor
      · simp [h0]
      · rintro ⟨hx0, -⟩
        exact h0 hx0
  | cons y ys =>
    left
    constructor
    · rfl
    · rintro ⟨-, hnil⟩
      exact absurd hnil (by simp)

theorem stripZeros_nil_iff (l : List Nat) : stripZeros l = [] ↔ ∀ x ∈ l, x = 0 := by
  induction l with
  | nil => simp [stripZeros]
  | cons h t ih =>
    rcases stripZeros_cons h t with ⟨he, hnot⟩ | ⟨h0, hnil, he⟩
    · rw [he]
      constructor
      · intro hx
        exact absurd hx (by simp)
      · intro hall
        exact absurd ⟨hall h (List.mem_cons_self h t),
          ih.2 (fun x hx => hall x (List.mem_cons_of_mem _ hx))⟩ hnot
    · rw [he]
      constructor
      · intro _ x hx
        rcases List.mem_cons.1 hx with rfl | hx
        · exact h0
        · exact ih.1 hnil x hx
      · intro _
        rfl

theorem listLT_zeros_right (a : List Nat) :
    ∀ b : List Nat, a.length = b.length → (∀ x ∈ b, x = 0) → listLT a b = false := by
  induction a with
  | nil =>
    intro b hlen _
    cases b with
    | nil => rfl
    | cons y ys => simp at hlen
  | cons x xs ih =>
    intro b hlen hb
    cases b with
    | nil => simp at hlen
    | cons y ys =>
      have hy : y = 0 := hb y (List.mem_cons_self y ys)
      subst hy
      simp only [listLT]
      rw [if_neg (Nat.not_lt_zero x)]
      by_cases hx : 0 < x
      · rw [if_pos hx]
      · rw [if_neg hx]
        exact ih ys (by simpa using hlen) (fun z hz => hb z (List.mem_cons_of_mem _ hz))

theorem listLT_zeros_left (a : List Nat) :
    ∀ b : List Nat, a.length = b.length → (∀ x ∈ a, x = 0) →
      ¬(∀ x ∈ b, x = 0) → listLT a b = true := by
  induction a with
  | nil =>
    intro b hlen _ hb
    cases b with
    | nil => exact absurd (by simp) hb
    | cons y ys => simp at hlen
  | cons x xs ih =>
    intro b hlen ha hb
    cases b with
    | nil => simp at hlen
    | cons y ys =>
      have hx : x = 0 := ha x (List.mem_cons_self x xs)
      subst hx
      simp only [listLT]
      by_cases hy : 0 < y
      · rw [if_pos hy]
      · have hy0 : y = 0 := by omega
        subst hy0
        rw [if_neg (lt_irrefl 0), if_neg (lt_irrefl 0)]
        apply ih ys (by simpa using hlen) (fun z hz => ha z (List.mem_cons_of_mem _ hz))
        intro hall
        apply hb
        intro z hz
        rcases List.mem_cons.1 hz with rfl | hz
        · rfl
        · exact hall z hz

theorem listLT_stripZeros (a : List Nat) :
    ∀ b : List Nat, a.length = b.length →
      listLT (stripZeros a) (stripZeros b) = listLT a b := by
  induction a with
  | nil =>
    intro b hlen
    cases b with
    | nil => rfl
    | cons y ys => simp at hlen
  | cons x xs ih =>
    intro b hlen
    cases b with
    | nil => simp at hlen
    | cons y ys =>
      have hlen' : xs.length = ys.length := by simpa using hlen
      rcases stripZeros_cons x xs with ⟨hea, hnota⟩ | ⟨hx0, hxsnil, hea⟩ <;>
        rcases stripZeros_cons y ys with ⟨heb, hnotb⟩ | ⟨hy0, hysnil, heb⟩
      · rw [hea, heb]
        simp only [listLT]
        rw [ih ys hlen']
      · rw [hea, heb]
        have hys0 : ∀ z ∈ ys, z = 0 := (stripZeros_nil_iff ys).1 hysnil
        have hrhs : listLT (x :: xs) (y :: ys) = false := by
          apply listLT_zeros_right _ _ hlen
          intro z hz
          rcases List.mem_cons.1 hz with rfl | hz
          · exact hy0
          · exact hys0 z hz
        rw [hrhs]
        rfl
      · rw [hea, heb]
        have hxs0 : ∀ z ∈ xs, z = 0 := (stripZeros_nil_iff xs).1 hxsnil
        have hrhs : listLT (x :: xs) (y :: ys) = true := by
          apply listLT_zeros_left _ _ hlen
          · intro z hz
            rcases List.mem_cons.1 hz with rfl | hz
            · exact hx0
            · exact hxs0 z hz
          · intro hall
            exact hnotb ⟨hall y (List.mem_cons_self y ys),
              (stripZeros_nil_iff ys).2 (fun z hz => hall z (List.mem_cons_of_mem _ hz))⟩
        rw [hrhs]
        rfl
      · rw [hea, heb]
        have hys0 : ∀ z ∈ ys, z = 0 := (stripZeros_nil_iff ys).1 hysnil
        have hrhs : listLT (x :: xs) (y :: ys) = false := by
          apply listLT_zeros_right _ _ hlen
          intro z hz
          rcases List.mem_cons.1 hz with rfl | hz
          · exact hy0
          · exact hys0 z hz
        rw [hrhs]
        rfl

theorem listLT_natTriple (m1 m2 m3 n1 n2 n3 : Nat) :
    listLT [m1, m2, m3] [n1, n2, n3] =
      (if m1 < n1 then true
       else if n1 < m1 then false
       else if m2 < n2 then true
       else if n2 < m2 then false
       else if m3 < n3 then true
       else if n3 < m3 then false
       else false) := by
  simp only [listLT]

theorem wbt_coe_lt_top (n : Nat) :
    (((n : WithTop Nat) : WithBot (WithTop Nat))) < (⊤ : WithBot (WithTop Nat)) := by
  rw [show (⊤ : WithBot (WithTop Nat)) = (((⊤ : WithTop Nat)) : WithBot (WithTop Nat)) from rfl,
    WithBot.coe_lt_coe]
  exact_mod_cast WithTop.coe_lt_top n

theorem wbt_coe_lt_coe (m n : Nat) :
    ((((m : WithTop Nat)) : WithBot (WithTop Nat)) <
      (((n : WithTop Nat)) : WithBot (WithTop Nat))) ↔ m < n := by
  rw [WithBot.coe_lt_coe]
  exact_mod_cast Iff.rfl

theorem pep_lt_spec (x y : GV) : pepLT x.pep y.pep = specOrderLT x y := by
  obtain ⟨a1, a2, a3, p⟩ := x
  obtain ⟨b1, b2, b3, q⟩ := y
  simp only [GV.pep, pepLT, specOrderLT]
  rw [listLT_stripZeros _ _ (by rfl), listLT_stripZeros _ _ (by rfl),
    listLT_natTriple, listLT_natTriple]
  rcases Nat.lt_trichotomy (digitsToNat a1) (digitsToNat b1) with h1 | h1 | h1
  · simp [h1, Nat.lt_asymm h1]
  · rw [h1]
    simp only [lt_self_iff_false, if_false]
    rcases Nat.lt_trichotomy (digitsToNat a2) (digitsToNat b2) with h2 | h2 | h2
    · simp [h2, Nat.lt_asymm h2]
    · rw [h2]
      simp only [lt_self_iff_false, if_false]
      rcases Nat.lt_trichotomy (digitsToNat a3) (digitsToNat b3) with h3 | h3 | h3
      · simp [h3, Nat.lt_asymm h3]
      · rw [h3]
        simp only [lt_self_iff_false, if_false]
        rcases p with _ | ⟨aa, _ | ad⟩ <;> rcases q with _ | ⟨bb, _ | bd⟩ <;>
          simp [pepPreKey, pepDevKey, WithBot.coe_lt_coe, WithTop.coe_lt_top,
            not_top_lt, Nat.cast_lt, wbt_coe_lt_top, wbt_coe_lt_coe]
      · simp [h3, Nat.lt_asymm h3]
    · simp [h2, Nat.lt_asymm h2]
  · simp [h1, Nat.lt_asymm h1]

theorem reconcile_idem (original proposed : List (Str × Str)) :
    reconcile original (reconcile original proposed) = reconcile original proposed := by
  unfold reconcile
  rw [List.map_map]
  apply List.map_congr_left
  intro e _
  simp only [Function.comp_apply]
  cases hl : lookupS e.1 original with
  | none => simp [hl]
  | some ov =>
    cases hn : is_newer_version (stripRange ov) (stripRange e.2) with
    | true => simp [hl, hn]
    | false => simp [hl, hn]

theorem reconcile_lookup (original : List (Str × Str)) (n pv : Str) :
    ∀ proposed : List (Str × Str), lookupS n proposed = some pv →
      lookupS n (reconcile original proposed) =
        some (match lookupS n original with
              | some ov => if is_newer_version (stripRange ov) (stripRange pv) then ov else pv
              | none => pv) := by
  intro proposed
  induction proposed with
  | nil => intro h; simp [lookupS] at h
  | cons e rest ih =>
    intro h
    obtain ⟨k, v⟩ := e
    by_cases hk : k = n
    · subst hk
      have hv : v = pv := by
        rw [lookupS, if_pos rfl] at h
        injection h
      subst hv
      cases hcl : lookupS k original with
      | none => simp [reconcile, lookupS, hcl]
      | some ov =>
        cases hn : is_newer_version (stripRange ov) (stripRange v) with
        | true => simp [reconcile, lookupS, hcl, hn]
        | false => simp [reconcile, lookupS, hcl, hn]
    · rw [lookupS, if_neg hk] at h
      have ihh := ih h
      unfold reconcile at ihh ⊢
      rw [List.map_cons]
      cases hcl : lookupS k original with
      | none =>
        simp only [hcl]
        rw [lookupS, if_neg hk]
        exact ihh
      | some ov =>
        cases hn : is_newer_version (stripRange ov) (stripRange v) with
        | true =>
          simp only [hcl, hn, eq_self_iff_true, if_true]
          rw [lookupS, if_neg hk]
          exact ihh
        | false =>
          simp only [hcl, hn, Bool.false_eq_true, if_false]
          rw [lookupS, if_neg hk]
          exact ihh

theorem reconcile_lookup_none (original : List (Str × Str)) (n : Str) :
    ∀ proposed : List (Str × Str), lookupS n proposed = none →
      lookupS n (reconcile original proposed) = none := by
  intro proposed
  induction proposed with
  | nil => intro _; rfl
  | cons e rest ih =>
    intro h
    obtain ⟨k, v⟩ := e
    by_cases hk : k = n
    · rw [lookupS, if_pos hk] at h
      exact absurd h (by simp)
    · rw [lookupS, if_neg hk] at h
      unfold reconcile at ih ⊢
      rw [List.map_cons]
      cases hcl : lookupS k original with
      | none =>
        simp only [hcl]
        rw [lookupS, if_neg hk]
        exact ih h
      | some ov =>
        cases hn : is_newer_version (stripRange ov) (stripRange v) with
        | true =>
          simp only [hcl, hn, eq_self_iff_true, if_true]
          rw [lookupS, if_neg hk]
          exact ih h
        | false =>
          simp only [hcl, hn, Bool.false_eq_true, if_false]
          rw [lookupS, if_neg hk]
          exact ih h

theorem occurs_iff (pat s : Str) : occurs pat s = true ↔ ∃ x y, s = x ++ pat ++ y := by
  unfold occurs
  induction s with
  | nil =>
    cases hp : pat with
    | nil =>
      constructor
      · intro _
        exact ⟨[], [], rfl⟩
      · intro _
        rfl
    | cons c cs =>
      constructor
      · intro hcon
        simp [rsplitOnce] at hcon
      · rintro ⟨x, y, hxy⟩
        exact absurd hxy.symm (by simp)
  | cons a as ih =>
    cases hr : rsplitOnce pat as with
    | some p =>
      have hs : (rsplitOnce pat (a :: as)).isSome = true := by
        simp [rsplitOnce, hr]
      rw [hs]
      constructor
      · intro _
        obtain ⟨x, y, hxy⟩ := ih.1 (by rw [hr]; rfl)
        exact ⟨a :: x, y, by rw [hxy]; simp⟩
      · intro _
        rfl
    | none =>
      by_cases hp : isPre pat (a :: as) = true
      · have hs : (rsplitOnce pat (a :: as)).isSome = true := by
          simp [rsplitOnce, hr, hp]
        rw [hs]
        obtain ⟨t, ht⟩ := (isPre_iff _ _).1 hp
        constructor
        · intro _
          exact ⟨[], t, by simp [ht]⟩
        · intro _
          rfl
      · have hs : (rsplitOnce pat (a :: as)).isSome = false := by
          simp only [rsplitOnce, hr]
          rw [if_neg (by simpa using hp)]
          rfl
        rw [hs]
        constructor
        · intro hfalse
          exact absurd hfalse (by simp)
        · rintro ⟨x, y, hxy⟩
          exfalso
          cases x with
          | nil =>
            apply hp
            apply (isPre_iff _ _).2
            exact ⟨y, by simpa using hxy⟩
          | cons b bs =>
            simp only [List.cons_append] at hxy
            injection hxy with hab hrest
            have : (rsplitOnce pat as).isSome = true :=
              ih.2 ⟨bs, y, hrest⟩
            rw [hr] at this
            exact absurd this (by simp)

theorem rewritePeerRange_bounded (lrest upper nv : Str)
    (hl : ('<' : Char) ∉ lrest) (hu : ('<' : Char) ∉ upper) :
    rewritePeerRange ('>' :: '=' :: (lrest ++ '<' :: upper)) nv =
      str (r">=") ++ nv ++ ' ' :: '<' :: pyStrip upper := by
  have hpre : isPre (str (r">=")) ('>' :: '=' :: (lrest ++ '<' :: upper)) = true :=
    (isPre_iff _ _).2 ⟨lrest ++ '<' :: upper, rfl⟩
  have hocc : occurs (str (r"<")) ('>' :: '=' :: (lrest ++ '<' :: upper)) = true :=
    (occurs_iff _ _).2 ⟨'>' :: '=' :: lrest, upper,
      by simp [show str (r"<") = ['<'] from rfl]⟩
  have hx : ('<' : Char) ∉ '>' :: '=' :: lrest :=
    not_mem_cons _ _ _ (by decide) (not_mem_cons _ _ _ (by decide) hl)
  have hsplit : splitOnChar '<' ('>' :: '=' :: (lrest ++ '<' :: upper)) =
      ['>' :: '=' :: lrest, upper] := by
    have h := splitOnChar_append '<' ('>' :: '=' :: lrest) upper hx
    rw [splitOnChar_not_mem '<' upper hu] at h
    simpa using h
  unfold rewritePeerRange
  rw [hpre, hocc, hsplit]
  simp

theorem rewritePeerRange_caret (rest nv : Str) :
    rewritePeerRange ('^' :: rest) nv = '^' :: nv := by
  have h1 : isPre (str (r">=")) ('^' :: rest) = false := by
    show isPre ['>', '='] ('^' :: rest) = false
    simp [isPre, show (('>' : Char) == '^') = false from by decide]
  have h2 : isPre (str (r"^")) ('^' :: rest) = true := by
    show isPre ['^'] ('^' :: rest) = true
    simp [isPre]
  unfold rewritePeerRange
  rw [h1, h2]
  simp

theorem rewritePeerRange_opaque (vr nv : Str)
    (h1 : isPre (str (r">=")) vr = false) (h2 : isPre (str (r"^")) vr = false) :
    rewritePeerRange vr nv = vr := by
  unfold rewritePeerRange
  rw [h1, h2]
  simp

theorem rewritePeerRange_multi (vr nv : Str) (hpre : isPre (str (r">=")) vr = true)
    (hlen : (splitOnChar '<' vr).length ≠ 2) :
    rewritePeerRange vr nv = vr := by
  unfold rewritePeerRange
  rw [hpre]
  cases hocc : occurs (str (r"<")) vr with
  | false =>
    have hv : isPre (str (r"^")) vr = false := by
      obtain ⟨t, rfl⟩ := (isPre_iff _ _).1 hpre
      show isPre ['^'] (['>', '='] ++ t) = false
      simp [isPre, show (('^' : Char) == '>') = false from by decide]
    simp [hv]
  | true =>
    simp only [Bool.and_self, eq_self_iff_true, if_true]
    rcases hs : splitOnChar '<' vr with _ | ⟨a, _ | ⟨b, _ | ⟨c, rest⟩⟩⟩
    · rfl
    · rfl
    · rw [hs] at hlen
      simp at hlen
    · rfl

theorem char_digit_facts (m : Nat) (h : m < 10) :
    (Char.ofNat (48 + m)).isDigit = true ∧ digitVal (Char.ofNat (48 + m)) = m := by
  interval_cases m <;> exact ⟨by decide, by decide⟩

theorem isDigits_append_singleton (xs : Str) (c : Char) (hxs : isDigits xs = true)
    (hc : c.isDigit = true) : isDigits (xs ++ [c]) = true := by
  simp only [isDigits, Bool.and_eq_true, List.all_eq_true, Bool.not_eq_true',
    List.isEmpty_eq_false] at *
  constructor
  · simp
  · intro x hx
    rcases List.mem_append.1 hx with hx | hx
    · exact hxs.2 x hx
    · rw [List.mem_singleton.1 hx]
      exact hc

theorem digitsToNat_append_singleton (xs : Str) (c : Char) :
    digitsToNat (xs ++ [c]) = 10 * digitsToNat xs + digitVal c := by
  simp [digitsToNat, List.foldl_append]

theorem natDigitsAux_spec (fuel : Nat) :
    ∀ n, n < fuel →
      isDigits (natDigitsAux fuel n) = true ∧ digitsToNat (natDigitsAux fuel n) = n := by
  induction fuel with
  | zero => intro n h; omega
  | succ f ih =>
    intro n h
    by_cases h10 : n < 10
    · have hc := char_digit_facts n h10
      constructor
      · simp [natDigitsAux, h10, isDigits, hc.1]
      · simp [natDigitsAux, h10, digitsToNat, hc.2]
    · have hdivlt : n / 10 < n := Nat.div_lt_self (by omega) (by omega)
      have hdiv : n / 10 < f := by omega
      obtain ⟨ih1, ih2⟩ := ih (n / 10) hdiv
      have hm : n % 10 < 10 := Nat.mod_lt _ (by omega)
      have hc := char_digit_facts (n % 10) hm
      have he : natDigitsAux (f + 1) n =
          natDigitsAux f (n / 10) ++ [Char.ofNat (48 + n % 10)] := by
        simp [natDigitsAux, h10]
      constructor
      · rw [he]
        exact isDigits_append_singleton _ _ ih1 hc.1
      · rw [he, digitsToNat_append_singleton, ih2, hc.2]
        omega

theorem natDigits_spec (n : Nat) :
    isDigits (natDigits n) = true ∧ digitsToNat (natDigits n) = n :=
  natDigitsAux_spec (n + 1) n (Nat.lt_succ_self n)

theorem matchTriple_eval (d1 d2 d3 rest : Str) (h1 : isDigits d1 = true)
    (h2 : isDigits d2 = true) (h3 : isDigits d3 = true)
    (hrest : ∀ c cs, rest = c :: cs → c.isDigit = false) :
    matchTriple (d1 ++ '.' :: (d2 ++ '.' :: (d3 ++ rest))) = some (d1, d2, d3, rest) := by
  obtain ⟨a1, t1, rfl⟩ : ∃ a t, d1 = a :: t := by
    cases d1 with
    | nil => simp [isDigits] at h1
    | cons a t => exact ⟨a, t, rfl⟩
  obtain ⟨a2, t2, rfl⟩ : ∃ a t, d2 = a :: t := by
    cases d2 with
    | nil => simp [isDigits] at h2
    | cons a t => exact ⟨a, t, rfl⟩
  obtain ⟨a3, t3, rfl⟩ : ∃ a t, d3 = a :: t := by
    cases d3 with
    | nil => simp [isDigits] at h3
    | cons a t => exact ⟨a, t, rfl⟩
  have m1 := munchDigits_all (a1 :: t1) (digits_all _ h1)
    ('.' :: ((a2 :: t2) ++ '.' :: ((a3 :: t3) ++ rest)))
    (fun c cs h => by injection h with e _; rw [← e]; decide)
  have m2 := munchDigits_all (a2 :: t2) (digits_all _ h2)
    ('.' :: ((a3 :: t3) ++ rest))
    (fun c cs h => by injection h with e _; rw [← e]; decide)
  have m3 := munchDigits_all (a3 :: t3) (digits_all _ h3) rest hrest
  simp only [List.cons_append] at m1 m2 m3
  simp only [matchTriple, List.cons_append, m1, m2, m3, expectChar, beq_self_eq_true, if_true]

theorem splitFirst_boundary (pat y : Str) (hpat : pat ≠ []) :
    ∀ x : Str, (∀ c cs, pat = c :: cs → c ∉ x) →
      splitFirst pat (x ++ pat ++ y) = some (x, y) := by
  intro x
  induction x with
  | nil =>
    intro _
    cases pat with
    | nil => exact absurd rfl hpat
    | cons p ps =>
      show splitFirst (p :: ps) (p :: (ps ++ y)) = some ([], y)
      have hp : isPre (p :: ps) (p :: (ps ++ y)) = true :=
        (isPre_iff _ _).2 ⟨y, by simp⟩
      have hd : (p :: (ps ++ y)).drop (p :: ps).length = y := by
        rw [show p :: (ps ++ y) = (p :: ps) ++ y from rfl]
        exact List.drop_left _ _
      simp only [splitFirst, hp, if_true, hd]
  | cons a as ih =>
    intro hhead
    show splitFirst pat (a :: (as ++ pat ++ y)) = some (a :: as, y)
    have hnp : isPre pat (a :: (as ++ pat ++ y)) = false := by
      cases hp2 : pat with
      | nil => exact absurd hp2 hpat
      | cons p ps =>
        have hne : (p == a) = false := by
          simp only [beq_eq_false_iff_ne, ne_eq]
          intro he
          apply hhead p ps hp2
          rw [he]
          exact List.mem_cons_self a as
        simp [isPre, hne]
    have ih' := ih (fun c cs hcc hmem => hhead c cs hcc (List.mem_cons_of_mem _ hmem))
    simp only [splitFirst, hnp, Bool.false_eq_true, if_false, ih', Option.map_some']

theorem replaceOnce_boundary (pat new y : Str) (hpat : pat ≠ []) (x : Str)
    (hhead : ∀ c cs, pat = c :: cs → c ∉ x) :
    replaceOnce pat new (x ++ pat ++ y) = x ++ new ++ y := by
  unfold replaceOnce
  rw [splitFirst_boundary pat y hpat x hhead]

theorem replaceAllFuel_none (fuel : Nat) (pat new s : Str) (h : splitFirst pat s = none) :
    replaceAllFuel fuel pat new s = s := by
  cases fuel with
  | zero => rfl
  | succ n => simp [replaceAllFuel, h]

theorem replaceAll_single (pat new y : Str) (hpat : pat ≠ []) (x : Str)
    (hhead : ∀ c cs, pat = c :: cs → c ∉ x) (hy : splitFirst pat y = none) :
    replaceAll pat new (x ++ pat ++ y) = x ++ new ++ y := by
  unfold replaceAll
  simp only [replaceAllFuel, splitFirst_boundary pat y hpat x hhead,
    replaceAllFuel_none (x ++ pat ++ y).length pat new y hy]

theorem matchHeadingAt_eval (d1 d2 d3 rest : Str) (h1 : isDigits d1 = true)
    (h2 : isDigits d2 = true) (h3 : isDigits d3 = true)
    (hrest : ∀ c cs, rest = c :: cs → c.isDigit = false) :
    matchHeadingAt (str (r"## ") ++ (d1 ++ '.' :: (d2 ++ '.' :: (d3 ++ rest)))) =
      some (d1, d2, d3) := by
  have hpre : isPre (str (r"## "))
      (str (r"## ") ++ (d1 ++ '.' :: (d2 ++ '.' :: (d3 ++ rest)))) = true :=
    (isPre_iff _ _).2 ⟨_, rfl⟩
  have hdrop : (str (r"## ") ++ (d1 ++ '.' :: (d2 ++ '.' :: (d3 ++ rest)))).drop 3 =
      d1 ++ '.' :: (d2 ++ '.' :: (d3 ++ rest)) := rfl
  have hmt := matchTriple_eval d1 d2 d3 rest h1 h2 h3 hrest
  simp only [matchHeadingAt, hpre, hdrop, hmt, eq_self_iff_true, if_true]

theorem matchHeadingAt_none (s : Str) (h : ∀ c cs, s = c :: cs → (c == '#') = false) :
    matchHeadingAt s = none := by
  have hp : isPre (str (r"## ")) s = false := by
    cases s with
    | nil => rfl
    | cons c cs =>
      have hc := h c cs rfl
      show isPre ['#', '#', ' '] (c :: cs) = false
      have hcc : (('#' : Char) == c) = false := by
        simp only [beq_eq_false_iff_ne, ne_eq]
        rw [beq_eq_false_iff_ne] at hc
        exact fun he => hc he.symm
      simp [isPre, hcc]
  simp [matchHeadingAt, hp]

theorem findHeading_skip (rest : Str) (g : Str × Str × Str)
    (hm : matchHeadingAt rest = some g) (hcons : ∃ c cs, rest = c :: cs) :
    ∀ x : Str, ('#' : Char) ∉ x → findHeading (x ++ rest) = some g := by
  intro x
  induction x with
  | nil =>
    intro _
    obtain ⟨c, cs, hr⟩ := hcons
    rw [hr] at hm ⊢
    simp [findHeading, hm]
  | cons a as ih =>
    intro hx
    have ha : matchHeadingAt (a :: (as ++ rest)) = none := by
      apply matchHeadingAt_none
      intro c cs h
      injection h with e _
      rw [← e]
      simp only [beq_eq_false_iff_ne, ne_eq]
      intro he
      exact hx (by rw [← he]; exact List.mem_cons_self a as)
    show findHeading (a :: (as ++ rest)) = some g
    simp only [findHeading, ha]
    exact ih (fun hmem => hx (List.mem_cons_of_mem _ hmem))

theorem bumpChangelog_eval (d1 d2 d3 : Str) (h1 : isDigits d1 = true)
    (h2 : isDigits d2 = true) (h3 : isDigits d3 = true) (x y : Str)
    (hx : ('#' : Char) ∉ x) (hy : ∀ c cs, y = c :: cs → c.isDigit = false) :
    bumpChangelog (x ++ (str (r"## ") ++ (d1 ++ '.' :: (d2 ++ '.' :: (d3 ++ y))))) =
      x ++ (str (r"## ") ++ (newVersionString d1 d2 ++ y)) := by
  have hm := matchHeadingAt_eval d1 d2 d3 y h1 h2 h3 hy
  have hfind : findHeading (x ++ (str (r"## ") ++ (d1 ++ '.' :: (d2 ++ '.' :: (d3 ++ y))))) =
      some (d1, d2, d3) :=
    findHeading_skip _ _ hm ⟨'#', '#' :: ' ' :: (d1 ++ '.' :: (d2 ++ '.' :: (d3 ++ y))), rfl⟩
      x hx
  unfold bumpChangelog
  simp only [hfind]
  have hpatcons : str (r"## ") ++ d1 ++ '.' :: d2 ++ '.' :: d3 =
      '#' :: ('#' :: (' ' :: (d1 ++ '.' :: (d2 ++ '.' :: d3)))) := by
    simp [show str (r"## ") = ['#', '#', ' '] from rfl]
  have hpat : str (r"## ") ++ d1 ++ '.' :: d2 ++ '.' :: d3 ≠ [] := by
    rw [hpatcons]
    simp
  have hhead : ∀ c cs, str (r"## ") ++ d1 ++ '.' :: d2 ++ '.' :: d3 = c :: cs → c ∉ x := by
    intro c cs h
    rw [hpatcons] at h
    injection h with e _
    rw [← e]
    exact hx
  have hc : x ++ (str (r"## ") ++ (d1 ++ '.' :: (d2 ++ '.' :: (d3 ++ y)))) =
      x ++ (str (r"## ") ++ d1 ++ '.' :: d2 ++ '.' :: d3) ++ y := by
    simp
  rw [hc, replaceOnce_boundary _ _ y hpat x hhead]
  simp

theorem matchVersionFieldAt_eval (d1 d2 d3 y : Str) (h1 : isDigits d1 = true)
    (h2 : isDigits d2 = true) (h3 : isDigits d3 = true) :
    matchVersionFieldAt (versionFieldLit (d1 ++ '.' :: d2 ++ '.' :: d3) ++ y) =
      some (d1, d2, d3) := by
  have h0 : versionFieldLit (d1 ++ '.' :: d2 ++ '.' :: d3) ++ y =
      versionFieldKey ++ (' ' :: '"' :: ((d1 ++ '.' :: (d2 ++ '.' :: d3)) ++ '"' :: y)) := by
    simp [versionFieldLit]
  have hpre : isPre versionFieldKey
      (versionFieldKey ++ (' ' :: '"' :: ((d1 ++ '.' :: (d2 ++ '.' :: d3)) ++ '"' :: y))) =
      true := (isPre_iff _ _).2 ⟨_, rfl⟩
  have hdrop : (versionFieldKey ++
      (' ' :: '"' :: ((d1 ++ '.' :: (d2 ++ '.' :: d3)) ++ '"' :: y))).drop
        versionFieldKey.length =
      ' ' :: '"' :: ((d1 ++ '.' :: (d2 ++ '.' :: d3)) ++ '"' :: y) := List.drop_left _ _
  have hdw : (' ' :: '"' :: ((d1 ++ '.' :: (d2 ++ '.' :: d3)) ++ '"' :: y)).dropWhile
      isPyWS = '"' :: ((d1 ++ '.' :: (d2 ++ '.' :: d3)) ++ '"' :: y) := rfl
  have hexp : expectChar '"' ('"' :: ((d1 ++ '.' :: (d2 ++ '.' :: d3)) ++ '"' :: y)) =
      some ((d1 ++ '.' :: (d2 ++ '.' :: d3)) ++ '"' :: y) := rfl
  have hmt : matchTriple ((d1 ++ '.' :: (d2 ++ '.' :: d3)) ++ '"' :: y) =
      some (d1, d2, d3, '"' :: y) := by
    rw [show (d1 ++ '.' :: (d2 ++ '.' :: d3)) ++ '"' :: y =
          d1 ++ '.' :: (d2 ++ '.' :: (d3 ++ '"' :: y)) from by simp]
    exact matchTriple_eval d1 d2 d3 ('"' :: y) h1 h2 h3
      (fun c cs h => by injection h with e _; rw [← e]; decide)
  have hip : isPre ['"'] ('"' :: y) = true := by simp [isPre]
  rw [h0]
  simp only [matchVersionFieldAt, hpre, hdrop, hdw, hexp, hmt, hip, eq_self_iff_true,
    if_true]

theorem matchVersionFieldAt_none (s : Str) (h : ∀ c cs, s = c :: cs → (c == '"') = false) :
    matchVersionFieldAt s = none := by
  have hp : isPre versionFieldKey s = false := by
    cases s with
    | nil => rfl
    | cons c cs =>
      have hc := h c cs rfl
      show isPre ('"' :: (str (r"version") ++ ['"', ':'])) (c :: cs) = false
      have hcc : (('"' : Char) == c) = false := by
        simp only [beq_eq_false_iff_ne, ne_eq]
        rw [beq_eq_false_iff_ne] at hc
        exact fun he => hc he.symm
      simp [isPre, hcc]
  simp [matchVersionFieldAt, hp]

theorem findVersionField_skip (rest : Str) (g : Str × Str × Str)
    (hm : matchVersionFieldAt rest = some g) (hcons : ∃ c cs, rest = c :: cs) :
    ∀ x : Str, ('"' : Char) ∉ x → findVersionField (x ++ rest) = some g := by
  intro x
  induction x with
  | nil =>
    intro _
    obtain ⟨c, cs, hr⟩ := hcons
    rw [hr] at hm ⊢
    simp [findVersionField, hm]
  | cons a as ih =>
    intro hx
    have ha : matchVersionFieldAt (a :: (as ++ rest)) = none := by
      apply matchVersionFieldAt_none
      intro c cs h
      injection h with e _
      rw [← e]
      simp only [beq_eq_false_iff_ne, ne_eq]
      intro he
      exact hx (by rw [← he]; exact List.mem_cons_self a as)
    show findVersionField (a :: (as ++ rest)) = some g
    simp only [findVersionField, ha]
    exact ih (fun hmem => hx (List.mem_cons_of_mem _ hmem))

theorem bumpVersionField_eval (d1 d2 d3 : Str) (h1 : isDigits d1 = true)
    (h2 : isDigits d2 = true) (h3 : isDigits d3 = true) (x y : Str)
    (hx : ('"' : Char) ∉ x)
    (hy : splitFirst (versionFieldLit (d1 ++ '.' :: d2 ++ '.' :: d3)) y = none) :
    bumpVersionField (x ++ versionFieldLit (d1 ++ '.' :: d2 ++ '.' :: d3) ++ y) =
      x ++ versionFieldLit (newVersionString d1 d2) ++ y := by
  obtain ⟨krest, hkr⟩ : ∃ rest, versionFieldLit (d1 ++ '.' :: d2 ++ '.' :: d3) = '"' :: rest :=
    ⟨_, rfl⟩
  have hfind : findVersionField (x ++ versionFieldLit (d1 ++ '.' :: d2 ++ '.' :: d3) ++ y) =
      some (d1, d2, d3) := by
    rw [List.append_assoc]
    exact findVersionField_skip _ _ (matchVersionFieldAt_eval d1 d2 d3 y h1 h2 h3)
      ⟨'"', krest ++ y, by rw [hkr]; rfl⟩ x hx
  have hpat : versionFieldLit (d1 ++ '.' :: d2 ++ '.' :: d3) ≠ [] := by
    rw [hkr]
    simp
  have hhead : ∀ c cs, versionFieldLit (d1 ++ '.' :: d2 ++ '.' :: d3) = c :: cs → c ∉ x := by
    intro c cs h
    rw [hkr] at h
    injection h with e _
    rw [← e]
    exact hx
  unfold bumpVersionField
  simp only [hfind]
  exact replaceAll_single _ _ y hpat x hhead hy

theorem munchDigits_sound (s : Str) :
    ∀ d r, munchDigits s = (d, r) → s = d ++ r ∧ (∀ c ∈ d, c.isDigit = true) := by
  induction s with
  | nil =>
    intro d r h
    simp only [munchDigits, Prod.mk.injEq] at h
    obtain ⟨h1, h2⟩ := h
    subst h1
    subst h2
    exact ⟨rfl, by simp⟩
  | cons c cs ih =>
    intro d r h
    by_cases hc : c.isDigit = true
    · cases hm : munchDigits cs with
      | mk d' r' =>
        rw [munchDigits, hm] at h
        simp only [hc, if_true, Prod.mk.injEq] at h
        obtain ⟨h1, h2⟩ := h
        subst h1
        subst h2
        obtain ⟨hs, hall⟩ := ih d' r' hm
        constructor
        · rw [hs]
          rfl
        · intro z hz
          rcases List.mem_cons.1 hz with rfl | hz
          · exact hc
          · exact hall z hz
    · rw [munchDigits] at h
      simp only [hc, Bool.false_eq_true, if_false, Prod.mk.injEq] at h
      obtain ⟨h1, h2⟩ := h
      subst h1
      subst h2
      exact ⟨rfl, by simp⟩

theorem expectChar_sound (x : Char) (s r : Str) (h : expectChar x s = some r) : s = x :: r := by
  cases s with
  | nil => simp [expectChar] at h
  | cons c cs =>
    simp only [expectChar] at h
    by_cases hc : (c == x) = true
    · rw [if_pos hc] at h
      injection h with hcr
      rw [beq_iff_eq] at hc
      rw [hc, hcr]
    · rw [if_neg hc] at h
      exact absurd h (by simp)

theorem isDigits_of_all (d : Str) (hne : d ≠ []) (h : ∀ c ∈ d, c.isDigit = true) :
    isDigits d = true := by
  cases d with
  | nil => exact absurd rfl hne
  | cons a as =>
    simp only [isDigits, Bool.and_eq_true, List.all_eq_true]
    exact ⟨by simp, fun c hc => h c hc⟩

theorem matchTriple_sound (s dd1 dd2 dd3 r : Str)
    (h : matchTriple s = some (dd1, dd2, dd3, r)) :
    s = dd1 ++ '.' :: (dd2 ++ '.' :: (dd3 ++ r)) ∧ isDigits dd1 = true ∧
      isDigits dd2 = true ∧ isDigits dd3 = true := by
  unfold matchTriple at h
  split at h
  · exact absurd h (by simp)
  · rename_i e1 t1 hne1 heq1
    split at h
    · exact absurd h (by simp)
    · rename_i r2 heq2
      split at h
      · exact absurd h (by simp)
      · rename_i e2 t2 hne2 heq3
        split at h
        · exact absurd h (by simp)
        · rename_i r4 heq4
          split at h
          · exact absurd h (by simp)
          · rename_i e3 t3 hne3 heq5
            injection h with hq
            injection hq with q1 hq
            injection hq with q2 hq
            injection hq with q3 q4
            obtain ⟨hs1, hall1⟩ := munchDigits_sound s _ _ heq1
            have hr1 := expectChar_sound '.' t1 r2 heq2
            obtain ⟨hs2, hall2⟩ := munchDigits_sound r2 _ _ heq3
            have hr3 := expectChar_sound '.' t2 r4 heq4
            obtain ⟨hs3, hall3⟩ := munchDigits_sound r4 _ _ heq5
            subst q1
            subst q2
            subst q3
            subst q4
            refine ⟨?_, ?_, ?_, ?_⟩
            · rw [hs1, hr1, hs2, hr3, hs3]
            · exact isDigits_of_all _ hne1 hall1
            · exact isDigits_of_all _ hne2 hall2
            · exact isDigits_of_all _ hne3 hall3

theorem matchGrammar_sound (s : Str) (g : GV) (h : matchGrammar s = some g) :
    s = g.render ∧ g.valid := by
  unfold matchGrammar at h
  split at h
  · exact absurd h (by simp)
  · rename_i dd1 dd2 dd3 r5 heq
    obtain ⟨hs, hd1, hd2, hd3⟩ := matchTriple_sound s dd1 dd2 dd3 r5 heq
    by_cases h5 : r5.isEmpty = true
    · rw [if_pos h5] at h
      injection h with hgg
      subst hgg
      have hr5 : r5 = [] := by
        cases r5 with
        | nil => rfl
        | cons _ _ => simp at h5
      subst hr5
      constructor
      · rw [hs]
        simp [GV.render]
      · exact ⟨hd1, hd2, hd3, trivial⟩
    · rw [if_neg h5] at h
      by_cases ha : isPre alphaSep r5 = true
      · rw [if_pos ha] at h
        obtain ⟨t5, ht5⟩ := (isPre_iff _ _).1 ha
        have hdrop : r5.drop alphaSep.length = t5 := by
          rw [ht5]
          exact List.drop_left _ _
        rw [hdrop] at h
        split at h
        · exact absurd h (by simp)
        · rename_i aa r6 hne6 heq6
          obtain ⟨ht5eq, haall⟩ := munchDigits_sound t5 _ _ heq6
          have haa : isDigits aa = true := isDigits_of_all _ hne6 haall
          by_cases h6 : r6.isEmpty = true
          · rw [if_pos h6] at h
            injection h with hgg
            subst hgg
            have hr6 : r6 = [] := by
              cases r6 with
              | nil => rfl
              | cons _ _ => simp at h6
            subst hr6
            constructor
            · rw [hs, ht5, ht5eq]
              simp [GV.render]
            · exact ⟨hd1, hd2, hd3, haa⟩
          · rw [if_neg h6] at h
            by_cases hdv : isPre devSep r6 = true
            · rw [if_pos hdv] at h
              obtain ⟨t6, ht6⟩ := (isPre_iff _ _).1 hdv
              have hdrop6 : r6.drop devSep.length = t6 := by
                rw [ht6]
                exact List.drop_left _ _
              rw [hdrop6] at h
              split at h
              · exact absurd h (by simp)
              · rename_i ddv r7 hne7 heq7
                obtain ⟨ht6eq, hdall⟩ := munchDigits_sound t6 _ _ heq7
                have hdd : isDigits ddv = true := isDigits_of_all _ hne7 hdall
                by_cases h7 : r7.isEmpty = true
                · rw [if_pos h7] at h
                  injection h with hgg
                  subst hgg
                  have hr7 : r7 = [] := by
                    cases r7 with
                    | nil => rfl
                    | cons _ _ => simp at h7
                  subst hr7
                  constructor
                  · rw [hs, ht5, ht5eq, ht6, ht6eq]
                    simp [GV.render]
                  · exact ⟨hd1, hd2, hd3, haa, hdd⟩
                · rw [if_neg h7] at h
                  exact absurd h (by simp)
            · rw [if_neg hdv] at h
              exact absurd h (by simp)
      · rw [if_neg ha] at h
        exact absurd h (by simp)

theorem parse_of_inGrammar (s : Str) (h : inGrammar s = true) :
    (parseVersionTuple s).isSome = true := by
  unfold inGrammar at h
  cases hg : matchGrammar (stripRange s) with
  | none =>
    rw [hg] at h
    simp at h
  | some g =>
    obtain ⟨hrender, hvalid⟩ := matchGrammar_sound _ g hg
    unfold parseVersionTuple
    rw [hrender, parseCore_render g hvalid]
    rfl

/-! ### Claim theorems -/

/-- C1: for every pair of §4.1 grammar versions, the comparison obtained by
parsing both strings with `_parse_version_tuple` orders them by
(major, minor, patch) lexicographically first; within an equal triple a version
with no pre-release sorts after one with a pre-release; within equal
pre-release numbers a version with no dev number sorts after one with a dev
number; otherwise alpha and then dev numbers are compared numerically. In
particular 0.1.0-alpha.11 < 0.1.0-alpha.12-dev.5 < 0.1.0-alpha.12 < 0.1.0. -/
theorem claim_C1 :
    (∀ x y : GV, x.valid → y.valid →
      parseTupleLT x.render y.render = some (specOrderLT x y)) ∧
    parseTupleLT (str (r"0.1.0-alpha.11")) (str (r"0.1.0-alpha.12-dev.5")) = some true ∧
    parseTupleLT (str (r"0.1.0-alpha.12-dev.5")) (str (r"0.1.0-alpha.12")) = some true ∧
    parseTupleLT (str (r"0.1.0-alpha.12")) (str (r"0.1.0")) = some true := by
  refine ⟨?_, by decide, by decide, by decide⟩
  intro x y hx hy
  simp only [parseTupleLT, parse_render x hx, parse_render y hy, tuple_lt_spec]

/-- Witness for C1: the general part applied to the concrete valid grammar
versions 1.2.3 and 1.2.4. -/
theorem claim_C1_witness :
    parseTupleLT (GV.render ⟨['1'], ['2'], ['3'], none⟩) (GV.render ⟨['1'], ['2'], ['4'], none⟩) =
      some (specOrderLT ⟨['1'], ['2'], ['3'], none⟩ ⟨['1'], ['2'], ['4'], none⟩) :=
  claim_C1.1 ⟨['1'], ['2'], ['3'], none⟩ ⟨['1'], ['2'], ['4'], none⟩ (by decide) (by decide)

/-- Counterexample to C2 as stated: "1.2" and "1.10" both fail the §4.1 grammar,
yet the comparison does not fall back to byte-wise string comparison on them:
the string comparison says "1.2" is larger while is_newer_version says it is
not newer (packaging parses both and compares 1.2 < 1.10 numerically). -/
theorem claim_C2_counterexample :
    inGrammar (str (r"1.2")) = false ∧ inGrammar (str (r"1.10")) = false ∧
    is_newer_version (str (r"1.2")) (str (r"1.10")) = false ∧
    listLT (str (r"1.10")) (str (r"1.2")) = true := by decide

/-- C2 amended: is_newer_version is total, and whenever either input fails to
parse under the PEP 440 parser the code actually uses (modelled here), the
result equals Python's lexicographic string comparison of the two original
literals; inputs outside §4.1 that PEP 440 still accepts are compared as parsed
versions instead. In particular is_newer_version("not-a-version",
"also-not-a-version") returns the string-comparison verdict, true. -/
theorem claim_C2 :
    (∀ a b : Str, pep440Parse a = none ∨ pep440Parse b = none →
      is_newer_version a b = listLT b a) ∧
    is_newer_version (str (r"not-a-version")) (str (r"also-not-a-version")) =
      listLT (str (r"also-not-a-version")) (str (r"not-a-version")) ∧
    is_newer_version (str (r"not-a-version")) (str (r"also-not-a-version")) = true := by
  refine ⟨?_, by decide, by decide⟩
  intro a b h
  rcases h with h | h
  · cases hb : pep440Parse b <;> simp [is_newer_version, h, hb]
  · cases ha : pep440Parse a <;> simp [is_newer_version, h, ha]

/-- Witness for C2: the fallback equation applied at a concrete unparseable
first argument. -/
theorem claim_C2_witness :
    is_newer_version (str (r"abc")) (str (r"1.0")) =
      listLT (str (r"1.0")) (str (r"abc")) :=
  claim_C2.1 (str (r"abc")) (str (r"1.0")) (Or.inl (by decide))

/-- Counterexample to C3 as stated: the upper-bound clause is not preserved
byte-for-byte — the text after "<" has its whitespace stripped, so
">=0.5.0 < 1.0.0" becomes ">=0.6.2 <1.0.0", not ">=0.6.2 < 1.0.0". -/
theorem claim_C3_counterexample :
    rewritePeerRange (str (r">=0.5.0 < 1.0.0")) (str (r"0.6.2")) = str (r">=0.6.2 <1.0.0") ∧
    str (r">=0.6.2 <1.0.0") ≠ str (r">=0.6.2 < 1.0.0") := by decide

/-- C3 amended: rewritePeerRange is total and obeys the rules, checked in
order: a literal starting ">=" and containing exactly one "<" (no semver shape
is required of what sits between) becomes ">=", the new version, one space, and
"<" followed by the whitespace-stripped text after the "<" — preserved only up
to that stripping, not byte-for-byte; a ">=" literal whose "<"-split does not
have exactly two parts is returned unchanged; otherwise a literal starting "^"
becomes "^" plus the new version; anything else is returned unchanged. The
three concrete examples behave as the claim states. -/
theorem claim_C3 :
    (∀ lrest upper nv : Str, ('<' : Char) ∉ lrest → ('<' : Char) ∉ upper →
      rewritePeerRange ('>' :: '=' :: (lrest ++ '<' :: upper)) nv =
        str (r">=") ++ nv ++ ' ' :: '<' :: pyStrip upper) ∧
    (∀ vr nv : Str, isPre (str (r">=")) vr = true → (splitOnChar '<' vr).length ≠ 2 →
      rewritePeerRange vr nv = vr) ∧
    (∀ rest nv : Str, rewritePeerRange ('^' :: rest) nv = '^' :: nv) ∧
    (∀ vr nv : Str, isPre (str (r">=")) vr = false → isPre (str (r"^")) vr = false →
      rewritePeerRange vr nv = vr) ∧
    rewritePeerRange (str (r">=0.5.0 <1.0.0")) (str (r"0.6.2")) = str (r">=0.6.2 <1.0.0") ∧
    rewritePeerRange (str (r"^2.0.0")) (str (r"2.1.0")) = str (r"^2.1.0") ∧
    rewritePeerRange (str (r"workspace:*")) (str (r"9.9.9")) = str (r"workspace:*") :=
  ⟨rewritePeerRange_bounded, rewritePeerRange_multi, rewritePeerRange_caret,
    rewritePeerRange_opaque, by decide, by decide, by decide⟩

/-- Witness for C3: the bounded-range rule applied at concrete inputs. -/
theorem claim_C3_witness :
    rewritePeerRange ('>' :: '=' :: (str (r"1.0.0 ") ++ '<' :: str (r"2.0.0")))
        (str (r"1.5.0")) =
      str (r">=") ++ str (r"1.5.0") ++ ' ' :: '<' :: pyStrip (str (r"2.0.0")) :=
  claim_C3.1 (str (r"1.0.0 ")) (str (r"2.0.0")) (str (r"1.5.0")) (by decide) (by decide)

/-- C4: dependency-map reconciliation is idempotent against the same baseline:
reconcile(X, reconcile(X, Y)) = reconcile(X, Y) for all mappings X, Y. -/
theorem claim_C4 (original proposed : List (Str × Str)) :
    reconcile original (reconcile original proposed) = reconcile original proposed :=
  reconcile_idem original proposed

/-- C5 amended: after stripping leading range markers, parsing never fails on a
string of the §4.1 grammar, and it fails (raises) on strings like
"not-a-version" whose fields do not survive int() conversion; but failure is
NOT equivalent to being outside the grammar — the parser also accepts
"1.2.3-dev.5" (dev without alpha), "1.2" (two numerals) and "+1.2.3" (leading
plus), all outside the grammar (see the counterexample). -/
theorem claim_C5 :
    (∀ s : Str, inGrammar s = true → (parseVersionTuple s).isSome = true) ∧
    parseVersionTuple (str (r"not-a-version")) = none :=
  ⟨parse_of_inGrammar, by decide⟩

/-- Counterexample to C5 as stated: inputs outside the §4.1 grammar on which
`_parse_version_tuple` nevertheless succeeds: a dev suffix without a preceding
alpha, only two dot-separated numerals, and a leading plus sign. -/
theorem claim_C5_counterexample :
    inGrammar (str (r"1.2.3-dev.5")) = false ∧
    (parseVersionTuple (str (r"1.2.3-dev.5"))).isSome = true ∧
    inGrammar (str (r"1.2")) = false ∧
    (parseVersionTuple (str (r"1.2"))).isSome = true ∧
    inGrammar (str (r"+1.2.3")) = false ∧
    (parseVersionTuple (str (r"+1.2.3"))).isSome = true := by decide

/-- Witness for C5: the grammar-success direction applied to the concrete
grammar string "~0.1.0-alpha.3" (with a range marker to strip). -/
theorem claim_C5_witness :
    (parseVersionTuple (str (r"~0.1.0-alpha.3"))).isSome = true :=
  claim_C5.1 (str (r"~0.1.0-alpha.3")) (by decide)

/-- C6: the bump classification returns MINOR iff some diff line both starts
with "+" and contains the literal "### Features"; a marker only in removed or
context lines never yields MINOR. The two concrete diffs classify as claimed. -/
theorem claim_C6 :
    (∀ lines : List Str,
      classifyBumpMinor lines = true ↔
        ∃ l ∈ lines, (∃ t, l = '+' :: t) ∧ ∃ x y, l = x ++ featuresMarker ++ y) ∧
    classifyBumpMinor [str (r"+### Features"), str (r"-### Bug Fixes")] = true ∧
    classifyBumpMinor [str (r"+### Bug Fixes"), str (r"-### Features")] = false := by
  refine ⟨?_, by decide, by decide⟩
  intro lines
  unfold classifyBumpMinor
  rw [List.any_eq_true]
  constructor
  · rintro ⟨l, hl, hb⟩
    rw [Bool.and_eq_true] at hb
    refine ⟨l, hl, ?_, (occurs_iff _ _).1 hb.2⟩
    obtain ⟨t, ht⟩ := (isPre_iff _ _).1 hb.1
    exact ⟨t, ht⟩
  · rintro ⟨l, hl, ⟨t, ht⟩, hocc⟩
    refine ⟨l, hl, ?_⟩
    rw [Bool.and_eq_true]
    exact ⟨(isPre_iff _ _).2 ⟨t, ht⟩, (occurs_iff _ _).2 hocc⟩

/-- C7: the minor bump maps (major, minor, patch) to (major, minor+1, 0): the
new version string's components are the unchanged major, the decimal rendering
of minor+1, and "0"; the changelog rewrite replaces exactly the first
"## <version>" heading, leaving everything before and after it (including any
incidental occurrence of the old version) untouched; the version-field rewrite
produces the same new-version string, so field and heading denote the identical
version; concretely "## 1.4.7 (2024-01-01)" becomes "## 1.5.0 (2024-01-01)"
while an incidental "1.4.7" later in the document is preserved. -/
theorem claim_C7 :
    (∀ d1 d2 : Str, isDigits d1 = true → isDigits d2 = true →
      splitOnChar '.' (newVersionString d1 d2) =
        [d1, natDigits (digitsToNat d2 + 1), ['0']] ∧
      digitsToNat (natDigits (digitsToNat d2 + 1)) = digitsToNat d2 + 1) ∧
    (∀ d1 d2 d3 x y : Str, isDigits d1 = true → isDigits d2 = true → isDigits d3 = true →
      ('#' : Char) ∉ x → (∀ c cs, y = c :: cs → c.isDigit = false) →
      bumpChangelog (x ++ (str (r"## ") ++ (d1 ++ '.' :: (d2 ++ '.' :: (d3 ++ y))))) =
        x ++ (str (r"## ") ++ (newVersionString d1 d2 ++ y))) ∧
    (∀ d1 d2 d3 x y : Str, isDigits d1 = true → isDigits d2 = true → isDigits d3 = true →
      ('"' : Char) ∉ x →
      splitFirst (versionFieldLit (d1 ++ '.' :: d2 ++ '.' :: d3)) y = none →
      bumpVersionField (x ++ versionFieldLit (d1 ++ '.' :: d2 ++ '.' :: d3) ++ y) =
        x ++ versionFieldLit (newVersionString d1 d2) ++ y) ∧
    bumpChangelog (str (r"## 1.4.7 (2024-01-01)") ++ '\n' :: str (r"x 1.4.7 y")) =
      str (r"## 1.5.0 (2024-01-01)") ++ '\n' :: str (r"x 1.4.7 y") := by
  refine ⟨?_, ?_, ?_, by decide⟩
  · intro d1 d2 h1 h2
    have hn := natDigits_spec (digitsToNat d2 + 1)
    constructor
    · rw [show newVersionString d1 d2 =
            d1 ++ '.' :: (natDigits (digitsToNat d2 + 1) ++ '.' :: ['0']) from by
          simp [newVersionString]]
      exact dot_split_three d1 _ _ h1 hn.1 (by decide)
    · exact hn.2
  · intro d1 d2 d3 x y h1 h2 h3 hx hy
    exact bumpChangelog_eval d1 d2 d3 h1 h2 h3 x y hx hy
  · intro d1 d2 d3 x y h1 h2 h3 hx hy
    exact bumpVersionField_eval d1 d2 d3 h1 h2 h3 x y hx hy

/-- Witness for C7: the changelog rule applied at a concrete document. -/
theorem claim_C7_witness :
    bumpChangelog (str (r"intro ") ++
        (str (r"## ") ++ (str (r"1") ++ '.' :: (str (r"4") ++ '.' :: (str (r"7") ++
          str (r" (2024)")))))) =
      str (r"intro ") ++ (str (r"## ") ++
        (newVersionString (str (r"1")) (str (r"4")) ++ str (r" (2024)"))) :=
  claim_C7.2.1 (str (r"1")) (str (r"4")) (str (r"7")) (str (r"intro ")) (str (r" (2024)"))
    (by decide) (by decide) (by decide) (by decide)
    (fun c cs h => by injection h with e _; rw [← e]; decide)

/-- C8: on parsed grammar versions the induced comparison is a total order:
comparing a parse with itself yields EQUAL; EQUAL implies the parsed tuples are
equal; the strict order is transitive; and any two parses are comparable. -/
theorem claim_C8 (x y z : GV) (hx : x.valid) (hy : y.valid) (hz : z.valid) :
    parseVersionTuple x.render = some x.tuple ∧
    compareT x.tuple x.tuple = Ordering.eq ∧
    (compareT x.tuple y.tuple = Ordering.eq → x.tuple = y.tuple) ∧
    (listLT x.tuple y.tuple = true → listLT y.tuple z.tuple = true →
      listLT x.tuple z.tuple = true) ∧
    (listLT x.tuple y.tuple = true ∨ x.tuple = y.tuple ∨ listLT y.tuple x.tuple = true) := by
  refine ⟨parse_render x hx, ?_, ?_, ?_, ?_⟩
  · unfold compareT
    rw [listLT_irrefl]
    simp
  · intro h
    unfold compareT at h
    by_cases h1 : listLT x.tuple y.tuple = true
    · rw [if_pos h1] at h
      exact absurd h (by simp)
    · rw [if_neg h1] at h
      by_cases h2 : listLT y.tuple x.tuple = true
      · rw [if_pos h2] at h
        exact absurd h (by simp)
      · exact listLT_eq_of_not _ _ (by simpa using h1) (by simpa using h2)
  · exact fun h1 h2 => listLT_trans _ _ _ h1 h2
  · by_cases h1 : listLT x.tuple y.tuple = true
    · exact Or.inl h1
    · by_cases h2 : listLT y.tuple x.tuple = true
      · exact Or.inr (Or.inr h2)
      · exact Or.inr (Or.inl (listLT_eq_of_not _ _ (by simpa using h1) (by simpa using h2)))

/-- Witness for C8 at three concrete valid grammar versions. -/
theorem claim_C8_witness :
    compareT (GV.tuple ⟨['1'], ['0'], ['0'], none⟩) (GV.tuple ⟨['1'], ['0'], ['0'], none⟩) =
      Ordering.eq :=
  (claim_C8 ⟨['1'], ['0'], ['0'], none⟩ ⟨['2'], ['0'], ['0'], none⟩
    ⟨['3'], ['0'], ['0'], none⟩ (by decide) (by decide) (by decide)).2.1

/-- C9: for a name bound in the proposed mapping, reconcile binds it to the
original value when the original compares newer after stripping any leading
caret/tilde from both value strings, and to the proposed value otherwise; a
name bound only in the proposed mapping keeps its proposed value. -/
theorem claim_C9 (original proposed : List (Str × Str)) (n pv : Str)
    (h : lookupS n proposed = some pv) :
    lookupS n (reconcile original proposed) =
      some (match lookupS n original with
            | some ov => if is_newer_version (stripRange ov) (stripRange pv) then ov else pv
            | none => pv) :=
  reconcile_lookup original n pv proposed h

/-- Witness for C9 at a concrete pair of one-entry mappings. -/
theorem claim_C9_witness :
    lookupS (str (r"pkg")) (reconcile [(str (r"pkg"), str (r"1.0.0"))]
      [(str (r"pkg"), str (r"2.0.0"))]) = some (str (r"2.0.0")) := by
  rw [claim_C9 [(str (r"pkg"), str (r"1.0.0"))] [(str (r"pkg"), str (r"2.0.0"))]
    (str (r"pkg")) (str (r"2.0.0")) (by decide)]
  decide

/-- C10: the two comparison implementations agree on all §4.1 grammar versions:
the tuple comparison of `_parse_version_tuple` succeeds and returns exactly the
verdict of the packaging-based is_newer_version. -/
theorem claim_C10 (x y : GV) (hx : x.valid) (hy : y.valid) :
    parseTupleGT x.render y.render = some (is_newer_version x.render y.render) := by
  simp only [parseTupleGT, is_newer_version, parse_render x hx, parse_render y hy,
    pep440_render x hx, pep440_render y hy, tuple_lt_spec, pep_lt_spec]

/-- Witness for C10 at a concrete pair of grammar versions with pre-release and
dev parts. -/
theorem claim_C10_witness :
    parseTupleGT (GV.render ⟨['0'], ['1'], ['0'], some (['1', '2'], none)⟩)
        (GV.render ⟨['0'], ['1'], ['0'], some (['1', '2'], some ['5'])⟩) =
      some (is_newer_version (GV.render ⟨['0'], ['1'], ['0'], some (['1', '2'], none)⟩)
        (GV.render ⟨['0'], ['1'], ['0'], some (['1', '2'], some ['5'])⟩)) :=
  claim_C10 ⟨['0'], ['1'], ['0'], some (['1', '2'], none)⟩
    ⟨['0'], ['1'], ['0'], some (['1', '2'], some ['5'])⟩ (by decide) (by decide)
